import Mathlib

/-
Verification of the `sequences` library (src/sequences/core.py) against its
specification.  The development shallowly embeds the parts of `core.py` the
claims are about:

* the two sequence grammars `DEFAULT_SEQUENCE_PATTERN` (plain sequences,
  class `AbstractSequence`) and `DEFAULT_FILE_SEQUENCE_PATTERN` (path
  sequences, class `FileSequence`), including Python `re` matching order
  (lazy `.*?` prefix, alternation with pairwise-disjoint leading characters,
  greedy runs, `$` also matching before one final newline, `.` not matching
  a newline);
* the derived accessors (`padding`, `prefix`, `suffix`, `currentItemNumber`,
  `_base_sequence_items`) and the five renderers (`get_string`,
  `get_pound_string`, `get_format_string`, `get_percent_string`,
  `get_regex_string`);
* membership (`is_part_of_sequence`, `num`), the explicit item-index
  builders (`_build_sequence_items_from_input` of both classes),
  `get_next_item` / `get_previous_item`;
* the range/gap calculator (`range`, `missing`);
* the control flow of `AbstractSequence.rename`.

Strings are modelled as `List Char`.  Python `int`s are `Int` (digit parses
produce non-negative values), exceptions are explicit `PyErr` values, and
`None`-or-value results are `Option`s.
-/

namespace Seqs

/-- The string type of the model: Python `str` as a list of characters. -/
abbrev Str := List Char

/-- Python 2 `re` `\d` on a byte string: the ASCII digits. -/
def isDigitC (c : Char) : Bool := '0' ≤ c && c ≤ '9'

/-- Python 2 `re` `\w` on a byte string (no LOCALE/UNICODE flag):
ASCII letters, digits and underscore. -/
def isWordC (c : Char) : Bool :=
  isDigitC c || ('a' ≤ c && c ≤ 'z') || ('A' ≤ c && c ≤ 'Z') || c = '_'

/-- Python 2 `re` `\S`: everything except space, tab, newline, carriage
return, vertical tab and form feed. -/
def isNonSpaceC (c : Char) : Bool :=
  !(c = ' ' || c = '\t' || c = '\n' || c = '\r' || c = '\x0b' || c = '\x0c')

/-- Numeric value of a digit character. -/
def digitVal (c : Char) : Nat := c.toNat - '0'.toNat

/-- Value of a decimal digit string, as computed by Python `int(...)`
(leading zeros allowed). -/
def decVal (s : Str) : Nat := s.foldl (fun a c => 10 * a + digitVal c) 0

/-- Decimal digit character for a value `< 10` (used by `str(n)` / `%d`). -/
def digitChar (n : Nat) : Char := Char.ofNat ('0'.toNat + n)

/-- Helper for `natDigits`: decimal digits of `n`, with fuel. -/
def natDigitsAux : Nat → Nat → Str
  | 0, _ => []
  | _ + 1, 0 => []
  | f + 1, n + 1 => natDigitsAux f ((n + 1) / 10) ++ [digitChar ((n + 1) % 10)]

/-- Decimal representation of a natural number, as produced by Python
`str(n)` for `n ≥ 0` (no sign, no leading zeros, `0 ↦ "0"`). -/
def natDigits (n : Nat) : Str := if n = 0 then ['0'] else natDigitsAux n n

/-- Python `'{:0Wd}'.format(n)` / `'%0Wd' % n`: decimal representation of
`n`, left-padded with zeros to width `w` (a sign, for negative `n`, counts
towards the width). -/
def formatPad (n : Int) (w : Nat) : Str :=
  if n < 0 then
    let ds := natDigits n.natAbs
    '-' :: List.replicate (w - 1 - ds.length) '0' ++ ds
  else
    let ds := natDigits n.toNat
    List.replicate (w - ds.length) '0' ++ ds

section DigitLemmas

theorem digitVal_digitChar {n : Nat} (h : n < 10) : digitVal (digitChar n) = n := by
  interval_cases n <;> decide

theorem isDigitC_digitChar {n : Nat} (h : n < 10) : isDigitC (digitChar n) = true := by
  interval_cases n <;> decide

theorem decVal_append_singleton (s : Str) (c : Char) :
    decVal (s ++ [c]) = 10 * decVal s + digitVal c := by
  simp [decVal, List.foldl_append]

theorem natDigitsAux_spec : ∀ f n, n ≤ f → decVal (natDigitsAux f n) = n ∧
    (∀ c ∈ natDigitsAux f n, isDigitC c = true) := by
  intro f
  induction f with
  | zero =>
    intro n hn
    interval_cases n
    simp [natDigitsAux, decVal]
  | succ f ih =>
    intro n hn
    match n with
    | 0 => simp [natDigitsAux, decVal]
    | n + 1 =>
      have hdiv : (n + 1) / 10 ≤ f := by
        have h1 : (n + 1) / 10 < n + 1 := Nat.div_lt_self (Nat.succ_pos n) (by norm_num)
        omega
      obtain ⟨h1, h2⟩ := ih ((n + 1) / 10) hdiv
      constructor
      · rw [natDigitsAux, decVal_append_singleton, h1,
          digitVal_digitChar (Nat.mod_lt _ (by norm_num))]
        omega
      · intro c hc
        rw [natDigitsAux] at hc
        rcases List.mem_append.1 hc with h | h
        · exact h2 c h
        · simp only [List.mem_singleton] at h
          rw [h]
          exact isDigitC_digitChar (Nat.mod_lt _ (by norm_num))

theorem decVal_natDigits (n : Nat) : decVal (natDigits n) = n := by
  unfold natDigits
  split
  · simp [decVal, digitVal]
    omega
  · exact (natDigitsAux_spec n n le_rfl).1

theorem natDigits_all_digits (n : Nat) : ∀ c ∈ natDigits n, isDigitC c = true := by
  unfold natDigits
  split
  · intro c hc
    simp only [List.mem_singleton] at hc
    subst hc
    decide
  · exact (natDigitsAux_spec n n le_rfl).2

theorem natDigits_ne_nil (n : Nat) : natDigits n ≠ [] := by
  unfold natDigits
  split
  · simp
  · intro h
    have := decVal_natDigits n
    rw [natDigits] at this
    simp only [if_neg (by assumption)] at this
    rw [h] at this
    simp [decVal] at this
    omega

theorem natDigitsAux_zero : ∀ f, natDigitsAux f 0 = []
  | 0 => rfl
  | _ + 1 => rfl

theorem natDigits_length_le {n w : Nat} (h : n < 10 ^ w) (hw : 1 ≤ w) :
    (natDigits n).length ≤ w := by
  by_contra hlen
  push_neg at hlen
  -- a shortest decimal representation of n has value ≥ 10 ^ (len - 1)
  have hlow : 10 ^ ((natDigits n).length - 1) ≤ n := by
    unfold natDigits at hlen ⊢
    split at hlen
    · simp at hlen
      omega
    · next hne =>
      simp only [if_neg hne]
      -- n ≥ 1 here; natDigitsAux f n = natDigitsAux f (n/10) ++ [digit]
      -- prove by strong induction packaged as an auxiliary claim
      have key : ∀ f n, n ≤ f → n ≠ 0 → 10 ^ ((natDigitsAux f n).length - 1) ≤ n := by
        intro f
        induction f with
        | zero => intro n hn h0; omega
        | succ f ih =>
          intro n hn h0
          match n with
          | 0 => omega
          | n + 1 =>
            rw [natDigitsAux]
            have hdiv : (n + 1) / 10 ≤ f := by
              have h1 : (n + 1) / 10 < n + 1 := Nat.div_lt_self (Nat.succ_pos n) (by norm_num)
              omega
            by_cases hz : (n + 1) / 10 = 0
            · rw [hz, natDigitsAux_zero]
              simp
            · have hk := ih ((n + 1) / 10) hdiv hz
              have hspec := (natDigitsAux_spec f ((n + 1) / 10) hdiv).1
              have hlen1 : (natDigitsAux f ((n + 1) / 10)).length ≥ 1 := by
                rcases hx : natDigitsAux f ((n + 1) / 10) with _ | ⟨c, t⟩
                · rw [hx] at hspec
                  simp [decVal] at hspec
                  omega
                · simp
              have h10 : 10 ^ ((natDigitsAux f ((n + 1) / 10)).length - 1) * 10 ≤
                  ((n + 1) / 10) * 10 := by
                exact Nat.mul_le_mul_right 10 hk
              have hle : ((n + 1) / 10) * 10 ≤ n + 1 := by
                have := Nat.div_mul_le_self (n + 1) 10
                omega
              simp only [List.length_append, List.length_singleton]
              have : 10 ^ ((natDigitsAux f ((n + 1) / 10)).length + 1 - 1) =
                  10 ^ ((natDigitsAux f ((n + 1) / 10)).length - 1) * 10 := by
                rw [Nat.add_sub_cancel]
                rw [← pow_succ]
                congr 1
                omega
              omega
      exact key n n le_rfl hne
  have hup : 10 ^ w ≤ 10 ^ ((natDigits n).length - 1) :=
    Nat.pow_le_pow_right (by norm_num) (by omega)
  omega

theorem decVal_replicate_zero_append (k : Nat) (s : Str) :
    decVal (List.replicate k '0' ++ s) = decVal s := by
  induction k with
  | zero => simp
  | succ k ih =>
    rw [List.replicate_succ, List.cons_append]
    show decVal ('0' :: (List.replicate k '0' ++ s)) = decVal s
    unfold decVal at *
    simp only [List.foldl_cons]
    have : 10 * 0 + digitVal '0' = 0 := by decide
    rw [this]
    exact ih

theorem formatPad_digits {n : Int} {w : Nat} (h0 : 0 ≤ n) (hw : 1 ≤ w)
    (hlt : n < (10 : Int) ^ w) :
    (formatPad n w).length = w ∧ (∀ c ∈ formatPad n w, isDigitC c = true) ∧
    decVal (formatPad n w) = n.toNat := by
  have hn : n.toNat < 10 ^ w := by
    rw [Int.toNat_lt' (pow_ne_zero w (by norm_num))]
    push_cast
    exact hlt
  have hlen : (natDigits n.toNat).length ≤ w := natDigits_length_le hn hw
  unfold formatPad
  rw [if_neg (by omega)]
  refine ⟨?_, ?_, ?_⟩
  · simp only [List.length_append, List.length_replicate]
    omega
  · intro c hc
    rcases List.mem_append.1 hc with h | h
    · rw [List.eq_of_mem_replicate h]
      decide
    · exact natDigits_all_digits _ c h
  · rw [decVal_replicate_zero_append]
    exact decVal_natDigits _

end DigitLemmas

/-! ## The sequence grammar

`DEFAULT_SEQUENCE_PATTERN` (plain) and `DEFAULT_FILE_SEQUENCE_PATTERN`
(path) share the five slot alternatives

  `nums = \d+`, `pounds = #+`, `regex = \\d{\d+}`,
  `formatstring = {\w+:\d+d}`, `percent = %\d+d`.

Their leading characters (a digit, `#`, `\`, `{`, `%`) are pairwise
disjoint, so at any position at most one alternative can match and the
alternation order is immaterial.  Within an alternative the greedy
`\d+`/`\w+`/`#+` runs are cut off by the fixed delimiter characters that
must follow them (which are never members of the run's character class),
so backtracking never produces a shorter run: each alternative matches at
most one, deterministic, token at a given position. -/

/-- The five slot flavors (named after the regex group names). -/
inductive Flavor
  | nums
  | pounds
  | rgx
  | formatstring
  | percent
  deriving DecidableEq

/-- A matched slot token: flavor, number of characters consumed, the
padding `_parse_padding_from_match` derives from the group text (run
length for `nums`/`pounds`; the value of the embedded digit run for the
other three, which is what the `lstrip`/`rstrip` dance computes since the
stripped character sets never contain a decimal digit), and — for
`formatstring` — the placeholder key (`groups[key][1:].split(':')[0]`). -/
structure Tok where
  flavor : Flavor
  len : Nat
  padding : Nat
  key : Str
  deriving DecidableEq

/-- The `nums` alternative `(?:\\d)+`: a nonempty maximal digit run. -/
def numsTokM (r : Str) : Option Tok :=
  if (r.takeWhile isDigitC).isEmpty then none
  else some ⟨.nums, (r.takeWhile isDigitC).length, (r.takeWhile isDigitC).length, []⟩

/-- The `pounds` alternative `(?:#)+`: a nonempty maximal `#` run. -/
def poundsTokM (r : Str) : Option Tok :=
  if (r.takeWhile (fun c => c = '#')).isEmpty then none
  else some ⟨.pounds, (r.takeWhile (fun c => c = '#')).length,
    (r.takeWhile (fun c => c = '#')).length, []⟩

/-- The `regex` alternative `\\\\d{\\d+}`: a literal `\\d{N}`. -/
def rgxTokM (r : Str) : Option Tok :=
  match r with
  | c1 :: c2 :: c3 :: t2 =>
    if c1 = '\\' ∧ c2 = 'd' ∧ c3 = '{' then
      if (t2.takeWhile isDigitC).isEmpty then none
      else
        match t2.dropWhile isDigitC with
        | c4 :: _ =>
          if c4 = '}' then
            some ⟨.rgx, 3 + (t2.takeWhile isDigitC).length + 1,
              decVal (t2.takeWhile isDigitC), []⟩
          else none
        | [] => none
    else none
  | _ => none

/-- The `formatstring` alternative `{\\w+:\\d+d}`. -/
def fmtTokM (r : Str) : Option Tok :=
  match r with
  | c1 :: t =>
    if c1 = '{' then
      if (t.takeWhile isWordC).isEmpty then none
      else
        match t.dropWhile isWordC with
        | c2 :: t2 =>
          if c2 = ':' then
            if (t2.takeWhile isDigitC).isEmpty then none
            else
              match t2.dropWhile isDigitC with
              | c3 :: c4 :: _ =>
                if c3 = 'd' ∧ c4 = '}' then
                  some ⟨.formatstring,
                    1 + (t.takeWhile isWordC).length + 1 +
                      (t2.takeWhile isDigitC).length + 2,
                    decVal (t2.takeWhile isDigitC), t.takeWhile isWordC⟩
                else none
              | _ => none
          else none
        | [] => none
    else none
  | [] => none

/-- The `percent` alternative `%\\d+d`. -/
def pctTokM (r : Str) : Option Tok :=
  match r with
  | c1 :: t =>
    if c1 = '%' then
      if (t.takeWhile isDigitC).isEmpty then none
      else
        match t.dropWhile isDigitC with
        | c2 :: _ =>
          if c2 = 'd' then
            some ⟨.percent, 1 + (t.takeWhile isDigitC).length + 1,
              decVal (t.takeWhile isDigitC), []⟩
          else none
        | [] => none
    else none
  | [] => none

/-- Match one slot alternative at the head of `r`, in the pattern's
alternation order (the leading characters — digit, `#`, `\\`, `{`, `%` —
are pairwise disjoint, so at most one alternative matches). -/
def matchToken (r : Str) : Option Tok :=
  (numsTokM r).orElse fun _ =>
    (poundsTokM r).orElse fun _ =>
      (rgxTokM r).orElse fun _ =>
        (fmtTokM r).orElse fun _ => pctTokM r

/-- Python `re` `$` (no MULTILINE): matches at the end of the string, or
just before one final newline. -/
def endOK (r : Str) : Bool := r = [] || r = ['\n']

/-- Does `r` match `.*\.\S+$`?  There must be a dot, not preceded by any
newline (`.` does not match `\n`), followed by a nonempty all-non-space
run that reaches the end of the string (a single final newline allowed by
`$`). -/
def hasExt (r : Str) : Bool :=
  match r with
  | [] => false
  | c :: t =>
    if c = '\n' then false
    else
      (if c = '.' then
        (let core := if t.getLast? = some '\n' then t.dropLast else t
         !core.isEmpty && core.all isNonSpaceC)
       else false) || hasExt t

/-- The suffix group alternation of `DEFAULT_FILE_SEQUENCE_PATTERN`:
`(?P<suffix>.*(?P<ext>\.\S+$)|$)`. -/
def suffixOK (r : Str) : Bool := hasExt r || endOK r

/-- The suffix group text for rest `r` after the slot: for the `.*\.\S+$`
branch the whole rest up to the `$` (so minus one final newline, if any);
for the `$` branch the empty string. -/
def suffixText (r : Str) : Str :=
  if hasExt r then (if r.getLast? = some '\n' then r.dropLast else r) else []

/-- One grammar match: the text before the slot (`prefix` group for the
plain pattern; `prefix` group plus the literal dot for the path pattern),
the slot token, the slot span start (`match.start('sequence')`) and the
suffix group text (`''` for the plain pattern, which has no such group). -/
structure GMatch where
  seqStart : Nat
  tok : Tok
  sfx : Str
  deriving DecidableEq

/-- Scan for the plain pattern: try the anchored slot at index `i`,
`i+1`, … (the lazy `.*?` prefix takes the smallest possible position);
the prefix cannot absorb a newline.  `r` is the rest of the string from
index `i`. -/
def plainScan (i : Nat) (r : Str) : Option (Nat × Tok) :=
  match r with
  | [] => none
  | c :: t =>
    match matchToken r with
    | some tk =>
      if endOK (r.drop tk.len) then some (i, tk)
      else if c = '\n' then none else plainScan (i + 1) t
    | none => if c = '\n' then none else plainScan (i + 1) t

/-- Scan for the path pattern: the slot must be preceded by a literal
dot and followed by a matching suffix; again the lazy prefix takes the
smallest position, and cannot absorb a newline. -/
def fileScan (i : Nat) (r : Str) : Option (Nat × Tok) :=
  match r with
  | [] => none
  | c :: t =>
    if c = '.' then
      match matchToken t with
      | some tk =>
        if suffixOK (t.drop tk.len) then some (i, tk) else fileScan (i + 1) t
      | none => fileScan (i + 1) t
    else if c = '\n' then none
    else fileScan (i + 1) t

/-- Classification / grammar errors (`cls.validate_path` raises). -/
inductive CErr
  | grammarMismatch
  -- `ValueError("Wrong format key for sequence: ...")`
  | formatKeyMismatch
  deriving DecidableEq

/-- The default `formatStringKey` of `AbstractSequence` / `FileSequence`. -/
def itemKey : Str := ['i', 't', 'e', 'm']

/-- `AbstractSequence.validate_path`: match the plain pattern, then check
a formatstring's key against the class key. -/
def classifyPlain (key : Str) (s : Str) : Except CErr GMatch :=
  match plainScan 0 s with
  | none => .error .grammarMismatch
  | some (i, tk) =>
    if tk.flavor = .formatstring ∧ tk.key ≠ key then .error .formatKeyMismatch
    else .ok ⟨i, tk, []⟩

/-- `FileSequence.validate_path` (minus the on-disk folder-existence
check, which is outside the model): match the path pattern, then check a
formatstring's key. -/
def classifyFile (key : Str) (s : Str) : Except CErr GMatch :=
  match fileScan 0 s with
  | none => .error .grammarMismatch
  | some (i, tk) =>
    if tk.flavor = .formatstring ∧ tk.key ≠ key then .error .formatKeyMismatch
    else .ok ⟨i + 1, tk, suffixText ((s.drop (i + 1)).drop tk.len)⟩

/-- A slot-shaped substring position satisfying the path pattern's
anchor, per the specified selection rule: the slot starts at `j`, is
preceded by a literal dot, and is followed by a matching suffix group
(`.*\\.\\S+$` or `$`).  This is the spec's notion of an *eligible* slot,
used to compare the claimed rightmost-wins selection with the
classifier's actual choice. -/
def fileSlotCandidate (s : Str) (j : Nat) : Bool :=
  1 ≤ j && ((s.drop (j - 1)).head? = some '.') &&
    (match matchToken (s.drop j) with
     | some tk => suffixOK ((s.drop j).drop tk.len)
     | none => false)

/-! ## Parsed sequence state and derived accessors -/

/-- `match.end('sequence')`. -/
def GMatch.seqEnd (m : GMatch) : Nat := m.seqStart + m.tok.len

/-- First element of `_base_sequence_items`: the source text before the
slot span (for the path pattern this includes the literal dot). -/
def base0 (s : Str) (m : GMatch) : Str := s.take m.seqStart

/-- Second element of `_base_sequence_items`: the source text from the
end of the slot span (this keeps a final newline the `$` skipped over). -/
def base1 (s : Str) (m : GMatch) : Str := s.drop m.seqEnd

/-- `currentItem`: the matched slot text (`groups['sequence']`). -/
def currentItemOf (s : Str) (m : GMatch) : Str := (s.drop m.seqStart).take m.tok.len

/-- `currentItemNumber`: defined (via `int(...)`) only for the `nums`
flavor. -/
def curNumOf (s : Str) (m : GMatch) : Option Int :=
  if m.tok.flavor = .nums then some (decVal (currentItemOf s m)) else none

/-- A plain-parsed sequence (`AbstractSequence` after `_parse_values`). -/
structure PSt where
  s : Str
  m : GMatch
  deriving DecidableEq

/-- A path-parsed sequence (`FileSequence` after `_parse_values`). -/
structure FSt where
  s : Str
  m : GMatch
  deriving DecidableEq

/-- `prefix` property of a plain sequence: the `prefix` group, which is
everything before the slot span. -/
def PSt.pre (st : PSt) : Str := st.s.take st.m.seqStart

/-- `suffix` property of a plain sequence: the plain pattern has no
`suffix` group, so `groupdict().get('suffix', None)` is `None` and the
property returns the empty string. -/
def PSt.sfx (_ : PSt) : Str := []

/-- `prefix` property of a path sequence: the `prefix` group, which
excludes the literal dot in front of the slot. -/
def FSt.pre (st : FSt) : Str := st.s.take (st.m.seqStart - 1)

/-- `suffix` property of a path sequence: the `suffix` group. -/
def FSt.sfx (st : FSt) : Str := st.m.sfx

/-! ## Exceptions raised by the item-level operations -/

/-- The Python exceptions the modelled operations raise. -/
inductive PyErr
  -- ValueError("Item is not part of the sequence")
  | notPartOfSeq
  -- ValueError("Invalid item number, missing item: ...")
  | unknownNumber
  -- ValueError("Cannot rename sequences with missing frames")
  | nonContiguous
  -- TypeError raised by int(None)
  | typeIntNone
  -- AttributeError: 'int' object has no attribute 'path'
  | attrIntPath
  deriving DecidableEq

instance {ε α : Type} [DecidableEq ε] [DecidableEq α] : DecidableEq (Except ε α) :=
  fun a b =>
    match a, b with
    | .ok x, .ok y =>
      if h : x = y then isTrue (by rw [h]) else isFalse (fun hh => h (by cases hh; rfl))
    | .error x, .error y =>
      if h : x = y then isTrue (by rw [h]) else isFalse (fun hh => h (by cases hh; rfl))
    | .ok _, .error _ => isFalse (fun hh => Except.noConfusion hh)
    | .error _, .ok _ => isFalse (fun hh => Except.noConfusion hh)

/-! ## Membership and slot-number extraction -/

/-- `AbstractSequence.is_part_of_sequence`: equal total length, starts
with the parsed prefix, ends with the parsed suffix — and nothing else
(the slot characters of the candidate are not inspected). -/
def isPartCore (srcLen : Nat) (pre sfx : Str) (x : Str) : Bool :=
  x.length = srcLen && pre.isPrefixOf x && sfx.isSuffixOf x

/-- `AbstractSequence.num`: raise unless the candidate is part of the
sequence, then read the source slot span (`start('sequence')`, width
`padding`) out of the candidate; return its `int` when the slice is all
digits, otherwise fall off the end of the function (Python returns
`None`). -/
def numCore (srcLen : Nat) (pre sfx : Str) (seqStart padding : Nat) (x : Str) :
    Except PyErr (Option Int) :=
  if isPartCore srcLen pre sfx x then
    let sl := (x.drop seqStart).take padding
    if !sl.isEmpty && sl.all isDigitC then .ok (some (decVal sl : Nat)) else .ok none
  else .error .notPartOfSeq

/-- `is_part_of_sequence` on a plain sequence. -/
def PSt.isPartOf (st : PSt) (x : Str) : Bool :=
  isPartCore st.s.length st.pre st.sfx x

/-- `num` on a plain sequence. -/
def PSt.num (st : PSt) (x : Str) : Except PyErr (Option Int) :=
  numCore st.s.length st.pre st.sfx st.m.seqStart st.m.tok.padding x

/-- `is_part_of_sequence` on a path sequence. -/
def FSt.isPartOf (st : FSt) (x : Str) : Bool :=
  isPartCore st.s.length st.pre st.sfx x

/-- `num` on a path sequence. -/
def FSt.num (st : FSt) (x : Str) : Except PyErr (Option Int) :=
  numCore st.s.length st.pre st.sfx st.m.seqStart st.m.tok.padding x

/-! ## The five renderers

Each renderer joins `_base_sequence_items` with the requested token:
`result = base0 ++ token ++ base1`. -/

/-- `'#' * int(padding)`. -/
def poundToken (p : Nat) : Str := List.replicate p '#'

/-- `'{{{0}:0{1}d}}'.format(formatKey, int(padding))`. -/
def fmtToken (key : Str) (p : Nat) : Str :=
  '{' :: key ++ ':' :: '0' :: natDigits p ++ ['d', '}']

/-- `'%0{0}d'.format(int(padding))`. -/
def pctToken (p : Nat) : Str := '%' :: '0' :: natDigits p ++ ['d']

/-- `'\d{{{0}}}'.format(int(padding))`. -/
def rgxToken (p : Nat) : Str := '\\' :: 'd' :: '{' :: natDigits p ++ ['}']

/-- `result.replace('[', '\\[')` applied by `get_regex_string`. -/
def escBr (s : Str) : Str := s.flatMap (fun c => if c = '[' then ['\\', '['] else [c])

/-- `get_pound_string(padding)` (`None` means the instance padding). -/
def getPoundString (s : Str) (m : GMatch) (padding : Option Nat) : Str :=
  base0 s m ++ poundToken (padding.getD m.tok.padding) ++ base1 s m

/-- `get_format_string(padding, formatKey)`; `key` is the class
`formatStringKey` used when no explicit key is passed. -/
def getFormatString (s : Str) (m : GMatch) (key : Str) (padding : Option Nat) : Str :=
  base0 s m ++ fmtToken key (padding.getD m.tok.padding) ++ base1 s m

/-- `get_percent_string(padding)`. -/
def getPercentString (s : Str) (m : GMatch) (padding : Option Nat) : Str :=
  base0 s m ++ pctToken (padding.getD m.tok.padding) ++ base1 s m

/-- `get_regex_string(padding)` on a freshly parsed instance (the
`_regex_string` memo is empty; note the memo would otherwise ignore the
`padding` argument).  The `[`-escaping is applied to the whole joined
string. -/
def getRegexString (s : Str) (m : GMatch) (padding : Option Nat) : Str :=
  escBr (base0 s m ++ rgxToken (padding.getD m.tok.padding) ++ base1 s m)

/-- The substitution `str.format` performs when the slot's own
replacement field `{KEY:0Pd}` is the only format syntax in the
template: the surrounding literal text is kept and the field renders as
the zero-padded number. -/
def formatJoin (s : Str) (m : GMatch) (n : Int) (P : Nat) : Str :=
  base0 s m ++ formatPad n P ++ base1 s m

/-- `get_string(itemNumber, padding)`: runs Python `str.format` on the
template produced by `get_format_string` with the single keyword
`KEY = itemNumber`.  `str.format` treats every brace character of the
template as format syntax: when the text around the slot is brace-free
the one replacement field `{KEY:0Pd}` is substituted and the literal
text is kept, so the result is `formatJoin`.  When `base0` or `base1`
itself contains `{` or `}` those characters are *not* literals to
`str.format` — they become escapes (`{{`/`}}`), additional replacement
fields that are also substituted (for the source `"{item}.0001"`,
`get_string(5, 4)` really returns `"5.0005"`, not `"{item}.0005"`), or
malformed syntax on which `str.format` raises `ValueError`/`KeyError` —
so the simple substitution result would be wrong.  The model commits to
a result only on the brace-free fragment and returns `none` outside
it. -/
def getString (s : Str) (m : GMatch) (n : Int) (padding : Option Nat) :
    Option Str :=
  if (base0 s m ++ base1 s m).all (fun c => !(c = '{' || c = '}')) then
    some (formatJoin s m n (padding.getD m.tok.padding))
  else none

/-! ## Explicit item-index builders -/

/-- Dictionary insertion `d[k] = v`: overwrite an existing key in place,
else append (Python dict keyed by `int`-or-`None`). -/
def dput (d : List (Option Int × Str)) (k : Option Int) (v : Str) :
    List (Option Int × Str) :=
  if d.any (fun kv => kv.1 = k) then
    d.map (fun kv => if kv.1 = k then (k, v) else kv)
  else d ++ [(k, v)]

/-- Dictionary lookup `d.get(k)`. -/
def dget (d : List (Option Int × Str)) (k : Option Int) : Option Str :=
  (d.find? (fun kv => kv.1 = k)).map (fun kv => kv.2)

/-- `AbstractSequence._build_sequence_items_from_input`: every explicit
item is keyed by `num(item)` (raising on non-members), then the source
string is added under its own number — but the guard
`if self.currentItemNumber:` uses Python truthiness, so both an undefined
(`None`) and a zero current number skip the source. -/
def buildFromInputPlain (st : PSt) (input : List Str) :
    Except PyErr (List (Option Int × Str)) :=
  match input.foldlM (fun d it => (st.num it).map (fun n => dput d n it))
      ([] : List (Option Int × Str)) with
  | .error e => .error e
  | .ok d =>
    match curNumOf st.s st.m with
    | some n => if n ≠ 0 then .ok (dput d (some n) st.s) else .ok d
    | none => .ok d

/-- `FileSequence._build_sequence_items_from_input`: non-members are
skipped (not errors), then the source path is added under
`sourceNumber = num(sourcePath)` whenever it is part of the sequence
(no truthiness guard here). -/
def buildFromInputFile (st : FSt) (input : List Str) :
    Except PyErr (List (Option Int × Str)) :=
  match input.foldlM
      (fun d it =>
        if st.isPartOf it then (st.num it).map (fun n => dput d n it)
        else .ok d)
      ([] : List (Option Int × Str)) with
  | .error e => .error e
  | .ok d =>
    if st.isPartOf st.s then (st.num st.s).map (fun n => dput d n st.s)
    else .ok d

/-! ## Range and missing -/

/-- `groupby(numbers, lambda x, c=count(): next(c)-x)` groups maximal
runs of equal keys; with key `i - x`, adjacent elements share a key
exactly when the successor is the predecessor plus one.  `splitRuns`
chunks the list accordingly. -/
def splitRuns : List Int → List (List Int)
  | [] => []
  | [x] => [[x]]
  | x :: y :: t =>
    match splitRuns (y :: t) with
    | [] => [[x]]
    | g :: gs => if y = x + 1 then (x :: g) :: gs else [x] :: g :: gs

/-- `as_range`: `[l[0]]` when `l[0] == l[-1]`, else `[l[0], l[-1]]`. -/
def asRange (g : List Int) : List Int :=
  match g.head?, g.getLast? with
  | some a, some b => if a = b then [a] else [a, b]
  | _, _ => []

/-- The `range` property: collapse the member numbers into intervals. -/
def rangeM (l : List Int) : List (List Int) := (splitRuns l).map asRange

/-- The integers produced for one adjacent pair `(a, b)` with
`diff = b - a`: `a + d` for `d` in `xrange(1, diff)`. -/
def betweenI (a b : Int) : List Int :=
  (List.range (b - a - 1).toNat).map (fun (d : Nat) => a + 1 + (d : Int))

/-- The `missing` property: for every adjacent pair of numbers with
difference above one, all integers strictly between them. -/
def missingM (l : List Int) : List Int :=
  ((l.drop 1).zip l).flatMap (fun p => if p.2 + 1 < p.1 then betweenI p.2 p.1 else [])

/-! ## Built sequences: next/previous item and rename -/

/-- A sequence with a built item index.  The index maps numbers to item
strings and iterates in ascending key order; `numbers` re-derives each
key by running `num` on the value, which for an index produced by the
builders above returns exactly the stored key, so we read the keys
directly. -/
structure SeqModel where
  st : PSt
  items : List (Int × Str)
  deriving DecidableEq

/-- The `numbers` property of a built sequence: ascending member keys. -/
def numbersK (m : SeqModel) : List Int := m.items.map (fun kv => kv.1)

/-- `get_next_item(itemNumber)` with an explicit number: raise when the
number is not a member; return `None` when it is the last; otherwise
render the item string for the key after it (the key at the found index,
plus one). -/
def getNextItem (m : SeqModel) (n : Int) : Except PyErr (Option Str) :=
  let nums := numbersK m
  if n ∈ nums then
    let i := nums.indexOf n
    if i = nums.length - 1 then .ok none
    else .ok (some (formatJoin m.st.s m.st.m (nums.getD i 0 + 1)
      m.st.m.tok.padding))
  else .error .unknownNumber

/-- `get_previous_item(itemNumber)` with an explicit number. -/
def getPrevItem (m : SeqModel) (n : Int) : Except PyErr (Option Str) :=
  let nums := numbersK m
  if n ∈ nums then
    let i := nums.indexOf n
    if i = 0 then .ok none
    else .ok (some (formatJoin m.st.s m.st.m (nums.getD i 0 - 1)
      m.st.m.tok.padding))
  else .error .unknownNumber

/-- Result of a `rename` call: the exception it raised (if any), the
`os.rename` operations performed, and whether the source string was
replaced (`setSource`). -/
structure RenameRes where
  outcome : Option PyErr
  moves : List (Str × Str)
  srcChanged : Bool
  deriving DecidableEq

/-- `AbstractSequence.rename(padding, startFrame, ignoreMissing, ...)`,
translated branch by branch (`pad` is the parsed instance padding, `ks`
the built index keys; `self.firstNumber` — a `FileSequence` accessor —
is the first key of a well-built index):

* both arguments `None`: return;
* no items: return;
* only `padding` given and equal to the current padding: return; when
  different, fall through to the contiguity check (line 488 short-circuits
  on its first conjunct);
* only `startFrame` given: when it equals the first number, return;
  otherwise line 488 evaluates `int(padding)` on `None` — `TypeError`;
* both given and both matching: return; otherwise fall through;
* contiguity check: more than one range interval and `ignoreMissing`
  unset raises `ValueError`;
* otherwise the plan loop `for item, num in zip(self.items, self.numbers)`
  iterates over the mapping's integer keys and evaluates `item.path` on
  an `int` — `AttributeError` on the first iteration (the index is
  non-empty here), before any `os.rename` and before `dryrun` is ever
  consulted. -/
def renameM (pad : Nat) (ks : List Int) (padding startFrame : Option Int)
    (ignoreMissing : Bool) (_dryrun : Bool) : RenameRes :=
  match padding, startFrame with
  | none, none => ⟨none, [], false⟩
  | _, _ =>
    if ks = [] then ⟨none, [], false⟩
    else
      let first := ks.headD 0
      let after491 : RenameRes :=
        if ¬ignoreMissing ∧ 1 < (rangeM ks).length then ⟨some .nonContiguous, [], false⟩
        else ⟨some .attrIntPath, [], false⟩
      match padding, startFrame with
      | some p, none => if p = (pad : Int) then ⟨none, [], false⟩ else after491
      | none, some sf =>
        if sf = first then ⟨none, [], false⟩ else ⟨some .typeIntNone, [], false⟩
      | some p, some sf =>
        if p = (pad : Int) ∧ sf = first then ⟨none, [], false⟩ else after491
      | none, none => ⟨none, [], false⟩

/-! ## Lemmas about the range/gap calculator -/

/-- The closed integer interval `[a..b]` as a list. -/
def closedIv (a b : Int) : List Int :=
  (List.range (b - a + 1).toNat).map (fun (d : Nat) => a + (d : Int))

/-- Expansion of one `range` interval back into its run of numbers. -/
def expandIv : List Int → List Int
  | [a] => [a]
  | [a, b] => closedIv a b
  | iv => iv

section RangeLemmas

theorem splitRuns_cons_cons (x y : Int) (t : List Int) :
    splitRuns (x :: y :: t) =
      match splitRuns (y :: t) with
      | [] => [[x]]
      | g :: gs => if y = x + 1 then (x :: g) :: gs else [x] :: g :: gs := rfl

theorem splitRuns_props (l : List Int) :
    (splitRuns l).flatten = l ∧
      ∀ g ∈ splitRuns l, g ≠ [] ∧ List.Chain' (fun a b => b = a + 1) g := by
  induction l with
  | nil => simp [splitRuns]
  | cons x xs ih =>
    match xs with
    | [] => simp [splitRuns]
    | y :: t =>
      obtain ⟨ihj, ihg⟩ := ih
      rcases hsp : splitRuns (y :: t) with _ | ⟨g, gs⟩
      · rw [hsp] at ihj
        simp at ihj
      · rw [hsp] at ihj ihg
        have hstep : splitRuns (x :: y :: t) =
            if y = x + 1 then (x :: g) :: gs else [x] :: g :: gs := by
          rw [splitRuns_cons_cons, hsp]
        have hgne := (ihg g (by simp)).1
        have hgch := (ihg g (by simp)).2
        obtain ⟨g', rfl⟩ : ∃ g', g = y :: g' := by
          rcases g with _ | ⟨c, g'⟩
          · exact absurd rfl hgne
          · have h2 : c :: (g' ++ gs.flatten) = y :: t := by simpa using ihj
            have hcy : c = y := by injection h2
            exact ⟨g', by rw [hcy]⟩
        rw [hstep]
        by_cases hcons : y = x + 1
        · rw [if_pos hcons]
          refine ⟨by simpa using ihj, ?_⟩
          intro h hh
          rcases List.mem_cons.1 hh with h1 | h1
          · subst h1
            exact ⟨by simp, List.Chain'.cons hcons hgch⟩
          · exact ihg h (by simp [h1])
        · rw [if_neg hcons]
          refine ⟨by simpa using ihj, ?_⟩
          intro h hh
          rcases List.mem_cons.1 hh with h1 | h1
          · subst h1
            exact ⟨by simp, by simp⟩
          · exact ihg h h1

theorem consec_getLast? {a : Int} {t : List Int}
    (h : List.Chain' (fun a b => b = a + 1) (a :: t)) :
    (a :: t).getLast? = some (a + t.length) := by
  induction t generalizing a with
  | nil => simp
  | cons c t' ih =>
    rw [List.chain'_cons] at h
    have := ih h.2
    rw [List.getLast?_cons_cons, this, h.1]
    congr 1
    simp only [List.length_cons]
    push_cast
    ring

theorem closedIv_cons {a b : Int} (h : a ≤ b) :
    closedIv a b = a :: closedIv (a + 1) b := by
  unfold closedIv
  have h1 : (b - a + 1).toNat = (b - (a + 1) + 1).toNat + 1 := by omega
  rw [h1, List.range_succ_eq_map]
  simp only [List.map_cons, List.map_map]
  congr 1
  · simp
  · apply List.map_congr_left
    intro d _
    simp only [Function.comp_apply]
    push_cast
    ring

theorem closedIv_of_consec {a : Int} {t : List Int}
    (h : List.Chain' (fun a b => b = a + 1) (a :: t)) :
    closedIv a (a + t.length) = a :: t := by
  induction t generalizing a with
  | nil =>
    simp only [List.length_nil, Nat.cast_zero, add_zero]
    unfold closedIv
    have h1 : (a - a + 1).toNat = 1 := by omega
    have h2 : List.range 1 = [0] := rfl
    rw [h1, h2]
    simp
  | cons c t' ih =>
    rw [List.chain'_cons] at h
    have hc : closedIv c (c + t'.length) = c :: t' := ih h.2
    have hlen : a + ((c :: t').length : Int) = c + t'.length := by
      rw [h.1]
      simp only [List.length_cons]
      push_cast
      ring
    have hle : a ≤ c + (t'.length : Int) := by
      have h1 := h.1
      have h2 : (0 : Int) ≤ t'.length := by positivity
      omega
    rw [hlen, closedIv_cons hle, ← h.1, hc]

theorem expandIv_asRange {g : List Int} (hne : g ≠ [])
    (hch : List.Chain' (fun a b => b = a + 1) g) :
    expandIv (asRange g) = g := by
  rcases g with _ | ⟨a, t⟩
  · exact absurd rfl hne
  · have hlast := consec_getLast? hch
    rw [asRange]
    simp only [List.head?_cons, hlast]
    by_cases heq : a = a + (t.length : Int)
    · have ht : t = [] := by
        have : (t.length : Int) = 0 := by omega
        exact List.length_eq_zero.1 (by exact_mod_cast this)
      subst ht
      rw [if_pos (by omega)]
      rfl
    · rw [if_neg heq]
      show closedIv a (a + t.length) = a :: t
      exact closedIv_of_consec hch

theorem asRange_head?_getLast? {g : List Int} (hne : g ≠ []) :
    (asRange g).head? = g.head? ∧ (asRange g).getLast? = g.getLast? := by
  rcases g with _ | ⟨a, t⟩
  · exact absurd rfl hne
  · rw [asRange]
    rcases hl : (a :: t).getLast? with _ | b
    · simp at hl
    · simp only [List.head?_cons]
      by_cases heq : a = b
      · rw [if_pos heq]
        subst heq
        simp [hl]
      · rw [if_neg heq]
        simp [hl]

theorem splitRuns_sep {l : List Int} (hs : List.Chain' (· < ·) l) :
    List.Chain'
      (fun g h => ∀ a b, g.getLast? = some a → h.head? = some b → a + 1 < b)
      (splitRuns l) := by
  induction l with
  | nil => simp [splitRuns]
  | cons x xs ih =>
    match xs with
    | [] => simp [splitRuns]
    | y :: t =>
      rw [List.chain'_cons] at hs
      have ihs := ih hs.2
      have hjoin := (splitRuns_props (y :: t)).1
      rcases hsp : splitRuns (y :: t) with _ | ⟨g, gs⟩
      · rw [hsp] at hjoin
        simp at hjoin
      · rw [hsp] at ihs hjoin
        have hstep : splitRuns (x :: y :: t) =
            if y = x + 1 then (x :: g) :: gs else [x] :: g :: gs := by
          rw [splitRuns_cons_cons, hsp]
        have hgne := ((splitRuns_props (y :: t)).2 g (by rw [hsp]; simp)).1
        have hghead : g.head? = some y := by
          rcases g with _ | ⟨c, g'⟩
          · exact absurd rfl hgne
          · have h2 : c :: (g' ++ gs.flatten) = y :: t := by simpa using hjoin
            have hcy : c = y := by injection h2
            rw [hcy]
            rfl
        rw [hstep]
        by_cases hcons : y = x + 1
        · rw [if_pos hcons]
          rcases g with _ | ⟨c, g'⟩
          · exact absurd rfl hgne
          · rw [List.chain'_cons'] at ihs ⊢
            refine ⟨?_, ihs.2⟩
            intro h hh a b hla hhb
            exact ihs.1 h hh a b (by rw [← hla, List.getLast?_cons_cons]) hhb
        · rw [if_neg hcons]
          rw [List.chain'_cons]
          refine ⟨?_, ihs⟩
          intro a b hla hhb
          simp only [List.getLast?_singleton, Option.some.injEq] at hla
          rw [hghead] at hhb
          have h2 : y = b := by injection hhb
          have h3 := hs.1
          omega

theorem betweenI_eq_closedIv (a b : Int) : betweenI a b = closedIv (a + 1) (b - 1) := by
  unfold betweenI closedIv
  have : (b - a - 1).toNat = (b - 1 - (a + 1) + 1).toNat := by omega
  rw [this]

theorem mem_betweenI {a b x : Int} : x ∈ betweenI a b ↔ a < x ∧ x < b := by
  unfold betweenI
  simp only [List.mem_map, List.mem_range]
  constructor
  · rintro ⟨d, hd, rfl⟩
    omega
  · rintro ⟨h1, h2⟩
    exact ⟨(x - a - 1).toNat, by omega, by omega⟩

theorem chain_lt_range_map (a : Int) (n : Nat) :
    List.Chain' (· < ·) ((List.range n).map (fun (d : Nat) => a + (d : Int))) := by
  induction n generalizing a with
  | zero => simp
  | succ n ih =>
    rw [List.range_succ_eq_map]
    simp only [List.map_cons, List.map_map]
    rw [List.chain'_cons']
    constructor
    · intro y hy
      rcases n with _ | n'
      · simp at hy
      · rw [List.range_succ_eq_map] at hy
        simp only [List.map_cons, Function.comp_apply, List.head?_cons,
          Option.mem_def, Option.some.injEq] at hy
        omega
    · have := ih (a + 1)
      convert this using 2
      funext d
      simp only [Function.comp_apply]
      push_cast
      ring

theorem chain_lt_betweenI (a b : Int) : List.Chain' (· < ·) (betweenI a b) :=
  chain_lt_range_map (a + 1) _

theorem missingM_cons (a b : Int) (t : List Int) :
    missingM (a :: b :: t) =
      (if a + 1 < b then betweenI a b else []) ++ missingM (b :: t) := rfl

theorem missingM_gt_head {l : List Int} (hs : List.Chain' (· < ·) l) :
    ∀ x ∈ missingM l, ∀ h, l.head? = some h → h < x := by
  induction l with
  | nil => simp [missingM]
  | cons a xs ih =>
    match xs with
    | [] => simp [missingM]
    | b :: t =>
      rw [List.chain'_cons] at hs
      intro x hx h hh
      simp only [List.head?_cons, Option.some.injEq] at hh
      subst hh
      rw [missingM_cons] at hx
      rcases List.mem_append.1 hx with h1 | h1
      · split at h1
        · exact (mem_betweenI.1 h1).1
        · simp at h1
      · have := ih hs.2 x h1 b rfl
        omega

theorem missingM_props {l : List Int} (hs : List.Chain' (· < ·) l) :
    (∀ i a b x, l[i]? = some a → l[i + 1]? = some b → a < x → x < b →
      x ∈ missingM l) ∧
    List.Chain' (· < ·) (missingM l) ∧
    (∀ x ∈ missingM l, ∃ i a b, l[i]? = some a ∧ l[i + 1]? = some b ∧
      a < x ∧ x < b) := by
  induction l with
  | nil => simp [missingM]
  | cons a xs ih =>
    match xs with
    | [] =>
      refine ⟨?_, by simp [missingM], by simp [missingM]⟩
      intro i x y z h1 h2
      rcases i with _ | i <;> simp at h1 h2
    | b :: t =>
      rw [List.chain'_cons] at hs
      obtain ⟨ihm, ihc, ihx⟩ := ih hs.2
      refine ⟨?_, ?_, ?_⟩
      · intro i av bv x h1 h2 hax hxb
        rw [missingM_cons]
        rcases i with _ | i
        · simp only [List.getElem?_cons_zero, Option.some.injEq] at h1
          simp only [List.getElem?_cons_succ, List.getElem?_cons_zero,
            Option.some.injEq] at h2
          subst h1 h2
          refine List.mem_append.2 (Or.inl ?_)
          rw [if_pos (by omega)]
          exact mem_betweenI.2 ⟨hax, hxb⟩
        · simp only [List.getElem?_cons_succ] at h1 h2
          exact List.mem_append.2 (Or.inr (ihm i av bv x h1 (by simpa using h2) hax hxb))
      · rw [missingM_cons]
        refine List.Chain'.append ?_ ihc ?_
        · split
          · exact chain_lt_betweenI a b
          · simp
        · intro x hx y hy
          have hxm : x ∈ (if a + 1 < b then betweenI a b else []) :=
            List.mem_of_mem_getLast? hx
          have hxb : x < b := by
            split at hxm
            · exact (mem_betweenI.1 hxm).2
            · simp at hxm
          have hym : y ∈ missingM (b :: t) := List.mem_of_mem_head? hy
          have := missingM_gt_head hs.2 y hym b rfl
          omega
      · intro x hx
        rw [missingM_cons] at hx
        rcases List.mem_append.1 hx with h1 | h1
        · split at h1
          · have := mem_betweenI.1 h1
            exact ⟨0, a, b, by simp, by simp, this.1, this.2⟩
          · simp at h1
        · obtain ⟨i, av, bv, g1, g2, g3, g4⟩ := ihx x h1
          exact ⟨i + 1, av, bv, by simpa using g1, by simpa using g2, g3, g4⟩

end RangeLemmas

/-- C3: for every (strictly ascending) list of member numbers, `range`
partitions the numbers into maximal runs of consecutive integers — the
expanded intervals joined in order give back exactly the number list,
each interval is `[n]` or `[lo, hi]` with `lo < hi`, and adjacent
intervals are separated by a genuine gap — and `missing` contains, for
every adjacent pair of present numbers, every integer strictly between
them, is strictly ascending, and contains nothing else. -/
theorem C3_range_missing (l : List Int) (hs : List.Chain' (· < ·) l) :
    ((rangeM l).map expandIv).flatten = l ∧
    (∀ iv ∈ rangeM l, (∃ n, iv = [n]) ∨ ∃ a b, a < b ∧ iv = [a, b]) ∧
    List.Chain'
      (fun iv jv => ∀ a b, iv.getLast? = some a → jv.head? = some b → a + 1 < b)
      (rangeM l) ∧
    (∀ i a b x, l[i]? = some a → l[i + 1]? = some b → a < x → x < b →
      x ∈ missingM l) ∧
    List.Chain' (· < ·) (missingM l) ∧
    (∀ x ∈ missingM l, ∃ i a b, l[i]? = some a ∧ l[i + 1]? = some b ∧
      a < x ∧ x < b) := by
  obtain ⟨hjoin, hgrp⟩ := splitRuns_props l
  obtain ⟨hm1, hm2, hm3⟩ := missingM_props hs
  refine ⟨?_, ?_, ?_, hm1, hm2, hm3⟩
  · unfold rangeM
    rw [List.map_map]
    have hmid : (splitRuns l).map (expandIv ∘ asRange) = (splitRuns l).map id := by
      apply List.map_congr_left
      intro g hg
      obtain ⟨hne, hch⟩ := hgrp g hg
      exact expandIv_asRange hne hch
    rw [hmid, List.map_id, hjoin]
  · unfold rangeM
    intro iv hiv
    obtain ⟨g, hg, rfl⟩ := List.mem_map.1 hiv
    obtain ⟨hne, hch⟩ := hgrp g hg
    rcases g with _ | ⟨a, t⟩
    · exact absurd rfl hne
    · have hlast := consec_getLast? hch
      rw [asRange]
      simp only [List.head?_cons, hlast]
      by_cases heq : a = a + (t.length : Int)
      · rw [if_pos (by omega)]
        exact Or.inl ⟨a, rfl⟩
      · rw [if_neg heq]
        refine Or.inr ⟨a, a + t.length, by omega, rfl⟩
  · unfold rangeM
    rw [List.chain'_map]
    have hsep := splitRuns_sep hs
    refine List.Chain'.imp ?_ hsep
    intro g h hrel a b hla hhb
    have hgne : g ≠ [] := by
      intro hg
      rw [hg] at hla
      simp [asRange] at hla
    have hhne : h ≠ [] := by
      intro hh
      rw [hh] at hhb
      simp [asRange] at hhb
    obtain ⟨hh1, hl1⟩ := asRange_head?_getLast? hgne
    obtain ⟨hh2, hl2⟩ := asRange_head?_getLast? hhne
    exact hrel a b (by rw [← hl1]; exact hla) (by rw [← hh2]; exact hhb)

/-- C3 witness: the pinned example — numbers `[1,2,3,5,7]` yield range
`[[1,3],[5],[7]]` and missing `[4,6]`, and the theorem instantiates at
this index (adjacent pair `(3,5)` puts `4` into `missing`). -/
theorem C3_range_missing_witness :
    rangeM [1, 2, 3, 5, 7] = [[1, 3], [5], [7]] ∧
    missingM [1, 2, 3, 5, 7] = [4, 6] ∧
    (4 : Int) ∈ missingM [1, 2, 3, 5, 7] :=
  ⟨by decide, by decide,
    (C3_range_missing [1, 2, 3, 5, 7] (by norm_num [List.chain'_cons])).2.2.2.1 2 3 5 4
      (by decide) (by decide) (by decide) (by decide)⟩

/-- C8: on a built index (ascending member numbers), `get_next_item`
returns `None` — without raising — exactly at the maximum member number,
`get_previous_item` returns `None` at the minimum, and both raise the
unknown-number error for any number absent from the index. -/
theorem C8_next_prev_boundary (m : SeqModel)
    (hs : List.Chain' (· < ·) (numbersK m)) :
    (∀ n, (numbersK m).getLast? = some n → getNextItem m n = .ok none) ∧
    (∀ n, (numbersK m).head? = some n → getPrevItem m n = .ok none) ∧
    (∀ n, n ∉ numbersK m →
      getNextItem m n = .error .unknownNumber ∧
      getPrevItem m n = .error .unknownNumber) := by
  have hp : List.Pairwise (· < ·) (numbersK m) := List.chain'_iff_pairwise.mp hs
  have hnd : (numbersK m).Nodup := hp.nodup
  refine ⟨?_, ?_, ?_⟩
  · intro n hn
    have hmem : n ∈ numbersK m := List.mem_of_mem_getLast? hn
    obtain ⟨hne, hlast⟩ := List.mem_getLast?_eq_getLast hn
    have hlen : 0 < (numbersK m).length := List.length_pos.2 hne
    have hget : n = (numbersK m)[(numbersK m).length - 1] := by
      rw [hlast, List.getLast_eq_getElem]
    have hidx : (numbersK m).indexOf n = (numbersK m).length - 1 := by
      rw [hget]
      exact List.indexOf_getElem hnd _ _
    unfold getNextItem
    rw [if_pos hmem, hidx, if_pos rfl]
  · intro n hn
    have hk0 : ∃ t, numbersK m = n :: t := by
      rcases hk : numbersK m with _ | ⟨a, t⟩
      · rw [hk] at hn
        simp at hn
      · rw [hk] at hn
        simp only [List.head?_cons, Option.some.injEq] at hn
        exact ⟨t, by rw [hn]⟩
    obtain ⟨t, hk⟩ := hk0
    have hmem : n ∈ numbersK m := by rw [hk]; exact List.mem_cons_self _ _
    unfold getPrevItem
    rw [if_pos hmem, hk, List.indexOf_cons_self, if_pos rfl]
  · intro n hn
    constructor
    · unfold getNextItem
      rw [if_neg hn]
    · unfold getPrevItem
      rw [if_neg hn]

/-- C8 witness: index `{1, 2, 3}` — next of the maximum `3` is `None`,
previous of the minimum `1` is `None`, and `4` raises. -/
theorem C8_next_prev_boundary_witness :
    getNextItem ⟨⟨"aaa010.0001".toList, ⟨7, ⟨.nums, 4, 4, []⟩, []⟩⟩,
        [(1, "aaa010.0001".toList), (2, "aaa010.0002".toList),
         (3, "aaa010.0003".toList)]⟩ 3 = .ok none ∧
    getPrevItem ⟨⟨"aaa010.0001".toList, ⟨7, ⟨.nums, 4, 4, []⟩, []⟩⟩,
        [(1, "aaa010.0001".toList), (2, "aaa010.0002".toList),
         (3, "aaa010.0003".toList)]⟩ 1 = .ok none ∧
    getNextItem ⟨⟨"aaa010.0001".toList, ⟨7, ⟨.nums, 4, 4, []⟩, []⟩⟩,
        [(1, "aaa010.0001".toList), (2, "aaa010.0002".toList),
         (3, "aaa010.0003".toList)]⟩ 4 = .error .unknownNumber := by
  have h := C8_next_prev_boundary
    ⟨⟨"aaa010.0001".toList, ⟨7, ⟨.nums, 4, 4, []⟩, []⟩⟩,
        [(1, "aaa010.0001".toList), (2, "aaa010.0002".toList),
         (3, "aaa010.0003".toList)]⟩ (by norm_num [numbersK, List.chain'_cons])
  exact ⟨h.1 3 (by decide), h.2.1 1 (by decide), (h.2.2 4 (by decide)).1⟩

/-- The rename no-op checks pass: some change was requested, the index is
non-empty, and the request differs from the current padding / first
number (mirrors lines 477-490 of `rename`). -/
def passesNoop (pad : Nat) (ks : List Int) (p sf : Option Int) : Prop :=
  ks ≠ [] ∧
  (match p, sf with
   | some pv, none => pv ≠ (pad : Int)
   | none, some s => s ≠ ks.headD 0
   | some pv, some s => ¬(pv = (pad : Int) ∧ s = ks.headD 0)
   | none, none => False)

/-- C9: every `rename` call that passes the no-op checks raises before
any filesystem move: the model never records a move nor a source change;
a start-number-only request that differs from the first number raises the
`int(None)` `TypeError`; and every call that reaches plan construction
(a padding request surviving the no-op and contiguity checks) raises the
`AttributeError` from `item.path` on the integer index keys — so `rename`
never invokes the external rename capability. -/
theorem C9_rename_never_moves (pad : Nat) (ks : List Int) (p sf : Option Int)
    (im dr : Bool) :
    ((renameM pad ks p sf im dr).moves = [] ∧
      (renameM pad ks p sf im dr).srcChanged = false) ∧
    (passesNoop pad ks p sf → ((renameM pad ks p sf im dr).outcome).isSome) ∧
    (p = none → ∀ s, sf = some s → ks ≠ [] → s ≠ ks.headD 0 →
      (renameM pad ks p sf im dr).outcome = some .typeIntNone) ∧
    (∀ pv, p = some pv → ks ≠ [] →
      (sf = none → pv ≠ (pad : Int)) →
      (∀ s, sf = some s → ¬(pv = (pad : Int) ∧ s = ks.headD 0)) →
      (im = true ∨ (rangeM ks).length ≤ 1) →
      (renameM pad ks p sf im dr).outcome = some .attrIntPath) := by
  refine ⟨?_, ?_, ?_, ?_⟩
  · rcases p with _ | pv <;> rcases sf with _ | s <;> simp only [renameM] <;>
      first
        | (split_ifs <;> simp)
        | simp
  · rintro ⟨hne, hreq⟩
    rcases p with _ | pv <;> rcases sf with _ | s <;> simp only [renameM] <;>
      first
        | (split_ifs <;> simp_all)
        | simp_all
  · rintro rfl s rfl hne hs
    simp only [renameM]
    rw [if_neg hne, if_neg hs]
  · rintro pv rfl hne h1 h2 h3
    rcases sf with _ | s
    · have hpv := h1 rfl
      simp only [renameM]
      rw [if_neg hne, if_neg hpv]
      rcases h3 with h3 | h3
      · rw [if_neg (by simp [h3])]
      · rw [if_neg (by omega)]
    · have hps := h2 s rfl
      simp only [renameM]
      rw [if_neg hne, if_neg hps]
      rcases h3 with h3 | h3
      · rw [if_neg (by simp [h3])]
      · rw [if_neg (by omega)]

/-- C9 witness: `rename(startFrame=5)` on a padding-4 index `{1, 2}`
raises the `int(None)` `TypeError`; `rename(padding=5)` reaches plan
construction and raises the `item.path` `AttributeError`; neither call
moves anything or touches the source string. -/
theorem C9_rename_never_moves_witness :
    (renameM 4 [1, 2] none (some 5) false false).outcome = some .typeIntNone ∧
    (renameM 4 [1, 2] (some 5) none false false).outcome = some .attrIntPath ∧
    (renameM 4 [1, 2] none (some 5) false false).moves = [] ∧
    (renameM 4 [1, 2] (some 5) none false false).srcChanged = false := by
  have h1 := C9_rename_never_moves 4 [1, 2] none (some 5) false false
  have h2 := C9_rename_never_moves 4 [1, 2] (some 5) none false false
  exact ⟨h1.2.2.1 rfl 5 rfl (by decide) (by decide),
    h2.2.2.2 5 rfl (by decide) (fun h => by decide) (fun s hs => by cases hs)
      (Or.inr (by decide)),
    h1.1.1, h2.1.2⟩

/-- C4 counterexample: on the gapped index `{1, 3}` (two range
intervals), `rename(startFrame=5)` with gaps not permitted is a genuine
change request, yet it fails with the `int(None)` `TypeError` of the
no-op checks — not with the non-contiguity `ValueError` the claim
names. -/
theorem C4_counterexample :
    renameM 4 [1, 3] none (some 5) false false =
      ⟨some .typeIntNone, [], false⟩ ∧
    PyErr.typeIntNone ≠ PyErr.nonContiguous := by
  constructor
  · rfl
  · decide

/-- C4 amended: when the change request includes a padding (and is not a
no-op), a non-contiguous sequence with gaps not permitted fails with the
non-contiguity `ValueError` before mutating anything — no move is
performed and the source is unchanged.  (A start-number-only request
instead fails earlier with a `TypeError`, likewise before mutating
anything; see the C4 counterexample.) -/
theorem C4_amended (pad : Nat) (ks : List Int) (pv : Int) (sf : Option Int)
    (dr : Bool) (hne : ks ≠ []) (hrange : 1 < (rangeM ks).length)
    (h1 : sf = none → pv ≠ (pad : Int))
    (h2 : ∀ s, sf = some s → ¬(pv = (pad : Int) ∧ s = ks.headD 0)) :
    renameM pad ks (some pv) sf false dr = ⟨some .nonContiguous, [], false⟩ := by
  rcases sf with _ | s
  · have hpv := h1 rfl
    simp only [renameM]
    rw [if_neg hne, if_neg hpv, if_pos (by exact ⟨by simp, hrange⟩)]
  · have hps := h2 s rfl
    simp only [renameM]
    rw [if_neg hne, if_neg hps, if_pos (by exact ⟨by simp, hrange⟩)]

/-- C4 amended witness: `rename(padding=5)` on the gapped index `{1, 3}`
raises the non-contiguity error with no move and no source change. -/
theorem C4_amended_witness :
    renameM 4 [1, 3] (some 5) none false false =
      ⟨some .nonContiguous, [], false⟩ :=
  C4_amended 4 [1, 3] 5 none false (by decide) (by decide)
    (fun _ => by decide) (fun s hs => by cases hs)

/-- C5: the rollback contract is unreachable — `rename(padding=5)` on the
contiguous index `{1, 2}` raises the `item.path` `AttributeError` while
building the plan, before any `os.rename` is attempted, so the
executor's per-move failure handling and its rollback loop can never
run and no partially-renamed (or renamed-then-reverted) state ever
arises from this code. -/
theorem C5_rollback_unreachable :
    renameM 4 [1, 2] (some 5) none false false =
      ⟨some .attrIntPath, [], false⟩ := by rfl

/-- C7: a dry run never produces a plan — with `dryRun` true the same
call raises the `item.path` `AttributeError` during plan construction,
before the dry-run flag is ever consulted; the state is untouched, so a
second identical dry run behaves identically, but no old-to-new plan is
computed by either run. -/
theorem C7_dryrun_no_plan :
    renameM 4 [1, 2] (some 5) none false true =
      ⟨some .attrIntPath, [], false⟩ ∧
    renameM 4 [1, 2] (some 5) none false true =
      renameM 4 [1, 2] (some 5) none false true := by
  exact ⟨by rfl, rfl⟩

/-! ## Inversion lemmas for the token matchers and the scans -/

section TokInversion

theorem numsTokM_inv {r : Str} {tk : Tok} (h : numsTokM r = some tk) :
    r.takeWhile isDigitC ≠ [] ∧
      tk = ⟨.nums, (r.takeWhile isDigitC).length, (r.takeWhile isDigitC).length, []⟩ := by
  unfold numsTokM at h
  by_cases h1 : (r.takeWhile isDigitC).isEmpty
  · rw [if_pos h1] at h
    cases h
  · rw [if_neg h1] at h
    exact ⟨by simpa [List.isEmpty_iff] using h1, (Option.some.inj h).symm⟩

theorem poundsTokM_inv {r : Str} {tk : Tok} (h : poundsTokM r = some tk) :
    r.takeWhile (fun c => c = '#') ≠ [] ∧
      tk = ⟨.pounds, (r.takeWhile (fun c => c = '#')).length,
        (r.takeWhile (fun c => c = '#')).length, []⟩ := by
  unfold poundsTokM at h
  by_cases h1 : (r.takeWhile (fun c => c = '#')).isEmpty
  · rw [if_pos h1] at h
    cases h
  · rw [if_neg h1] at h
    exact ⟨by simpa [List.isEmpty_iff] using h1, (Option.some.inj h).symm⟩

theorem rgxTokM_inv {r : Str} {tk : Tok} (h : rgxTokM r = some tk) :
    ∃ ds rest, r = '\\' :: 'd' :: '{' :: ds ++ '}' :: rest ∧ ds ≠ [] ∧
      (∀ c ∈ ds, isDigitC c = true) ∧
      tk = ⟨.rgx, 3 + ds.length + 1, decVal ds, []⟩ := by
  unfold rgxTokM at h
  split at h
  · next c1 c2 c3 t2 =>
    by_cases hc : c1 = '\\' ∧ c2 = 'd' ∧ c3 = '{'
    · obtain ⟨hc1, hc2, hc3⟩ := hc
      subst hc1
      subst hc2
      subst hc3
      rw [if_pos ⟨rfl, rfl, rfl⟩] at h
      by_cases h1 : (t2.takeWhile isDigitC).isEmpty
      · rw [if_pos h1] at h
        cases h
      · rw [if_neg h1] at h
        rcases hdw : t2.dropWhile isDigitC with _ | ⟨c4, rest⟩ <;> rw [hdw] at h <;>
          (try dsimp only at h)
        · cases h
        · by_cases hc4 : c4 = '}'
          · subst hc4
            rw [if_pos rfl] at h
            refine ⟨t2.takeWhile isDigitC, rest, ?_, by simpa [List.isEmpty_iff] using h1,
              fun c hc => List.mem_takeWhile_imp hc, (Option.some.inj h).symm⟩
            have e1 := List.takeWhile_append_dropWhile isDigitC t2
            rw [hdw] at e1
            simp only [List.cons_append, List.append_assoc]
            rw [e1]
          · rw [if_neg hc4] at h
            cases h
    · rw [if_neg hc] at h
      cases h
  · cases h

theorem fmtTokM_inv {r : Str} {tk : Tok} (h : fmtTokM r = some tk) :
    ∃ w ds rest, r = '{' :: w ++ ':' :: ds ++ 'd' :: '}' :: rest ∧
      w ≠ [] ∧ (∀ c ∈ w, isWordC c = true) ∧ ds ≠ [] ∧
      (∀ c ∈ ds, isDigitC c = true) ∧
      tk = ⟨.formatstring, 1 + w.length + 1 + ds.length + 2, decVal ds, w⟩ := by
  unfold fmtTokM at h
  split at h
  · next c1 t =>
    by_cases hc : c1 = '{'
    · subst hc
      rw [if_pos rfl] at h
      by_cases h1 : (t.takeWhile isWordC).isEmpty
      · rw [if_pos h1] at h
        cases h
      · rw [if_neg h1] at h
        rcases hdw : t.dropWhile isWordC with _ | ⟨c2, t2⟩ <;> rw [hdw] at h <;>
          (try dsimp only at h)
        · cases h
        · by_cases hc2 : c2 = ':'
          · subst hc2
            rw [if_pos rfl] at h
            by_cases h2 : (t2.takeWhile isDigitC).isEmpty
            · rw [if_pos h2] at h
              cases h
            · rw [if_neg h2] at h
              rcases hdw2 : t2.dropWhile isDigitC with _ | ⟨c3, t3⟩ <;> rw [hdw2] at h <;>
                (try dsimp only at h)
              · cases h
              · rcases t3 with _ | ⟨c4, rest⟩ <;> (try dsimp only at h)
                · cases h
                · by_cases hc34 : c3 = 'd' ∧ c4 = '}'
                  · obtain ⟨hc3, hc4⟩ := hc34
                    subst hc3
                    subst hc4
                    rw [if_pos ⟨rfl, rfl⟩] at h
                    refine ⟨t.takeWhile isWordC, t2.takeWhile isDigitC, rest, ?_,
                      by simpa [List.isEmpty_iff] using h1,
                      fun c hc => List.mem_takeWhile_imp hc,
                      by simpa [List.isEmpty_iff] using h2,
                      fun c hc => List.mem_takeWhile_imp hc, (Option.some.inj h).symm⟩
                    have e1 := List.takeWhile_append_dropWhile isWordC t
                    rw [hdw] at e1
                    have e2 := List.takeWhile_append_dropWhile isDigitC t2
                    rw [hdw2] at e2
                    simp only [List.cons_append, List.append_assoc]
                    rw [e2, e1]
                  · rw [if_neg hc34] at h
                    cases h
          · rw [if_neg hc2] at h
            cases h
    · rw [if_neg hc] at h
      cases h
  · cases h

theorem pctTokM_inv {r : Str} {tk : Tok} (h : pctTokM r = some tk) :
    ∃ ds rest, r = '%' :: ds ++ 'd' :: rest ∧ ds ≠ [] ∧
      (∀ c ∈ ds, isDigitC c = true) ∧
      tk = ⟨.percent, 1 + ds.length + 1, decVal ds, []⟩ := by
  unfold pctTokM at h
  split at h
  · next c1 t =>
    by_cases hc : c1 = '%'
    · subst hc
      rw [if_pos rfl] at h
      by_cases h1 : (t.takeWhile isDigitC).isEmpty
      · rw [if_pos h1] at h
        cases h
      · rw [if_neg h1] at h
        rcases hdw : t.dropWhile isDigitC with _ | ⟨c2, rest⟩ <;> rw [hdw] at h <;>
          (try dsimp only at h)
        · cases h
        · by_cases hc2 : c2 = 'd'
          · subst hc2
            rw [if_pos rfl] at h
            refine ⟨t.takeWhile isDigitC, rest, ?_, by simpa [List.isEmpty_iff] using h1,
              fun c hc => List.mem_takeWhile_imp hc, (Option.some.inj h).symm⟩
            have e1 := List.takeWhile_append_dropWhile isDigitC t
            rw [hdw] at e1
            simp only [List.cons_append, List.append_assoc]
            rw [e1]
          · rw [if_neg hc2] at h
            cases h
    · rw [if_neg hc] at h
      cases h
  · cases h

theorem matchToken_eq_some {r : Str} {tk : Tok} (h : matchToken r = some tk) :
    numsTokM r = some tk ∨ poundsTokM r = some tk ∨ rgxTokM r = some tk ∨
      fmtTokM r = some tk ∨ pctTokM r = some tk := by
  unfold matchToken at h
  rcases h1 : numsTokM r with _ | t1
  · rw [h1] at h
    rcases h2 : poundsTokM r with _ | t2
    · rw [h2] at h
      rcases h3 : rgxTokM r with _ | t3
      · rw [h3] at h
        rcases h4 : fmtTokM r with _ | t4
        · rw [h4] at h
          have h5 : pctTokM r = some tk := h
          exact Or.inr (Or.inr (Or.inr (Or.inr h5)))
        · rw [h4] at h
          have h5 : some t4 = some tk := h
          exact Or.inr (Or.inr (Or.inr (Or.inl h5)))
      · rw [h3] at h
        have h5 : some t3 = some tk := h
        exact Or.inr (Or.inr (Or.inl h5))
    · rw [h2] at h
      have h5 : some t2 = some tk := h
      exact Or.inr (Or.inl h5)
  · rw [h1] at h
    have h5 : some t1 = some tk := h
    exact Or.inl h5

/-- A match with the `nums` flavor can only come from the `nums`
alternative: the slot text is the maximal digit run and the padding is
its length. -/
theorem matchToken_nums_inv {r : Str} {tk : Tok} (h : matchToken r = some tk)
    (hf : tk.flavor = .nums) :
    r.takeWhile isDigitC ≠ [] ∧
      tk = ⟨.nums, (r.takeWhile isDigitC).length, (r.takeWhile isDigitC).length, []⟩ := by
  rcases matchToken_eq_some h with h1 | h1 | h1 | h1 | h1
  · exact numsTokM_inv h1
  · obtain ⟨_, h2⟩ := poundsTokM_inv h1
    rw [h2] at hf
    cases hf
  · obtain ⟨_, _, _, _, _, h2⟩ := rgxTokM_inv h1
    rw [h2] at hf
    cases hf
  · obtain ⟨_, _, _, _, _, _, _, _, h2⟩ := fmtTokM_inv h1
    rw [h2] at hf
    cases hf
  · obtain ⟨_, _, _, _, _, h2⟩ := pctTokM_inv h1
    rw [h2] at hf
    cases hf

end TokInversion

section ScanSoundness

theorem plainScan_sound :
    ∀ (r : Str) (i k : Nat) (tk : Tok), plainScan i r = some (k, tk) →
      i ≤ k ∧ matchToken (r.drop (k - i)) = some tk ∧
        endOK ((r.drop (k - i)).drop tk.len) = true ∧
        ∀ c ∈ r.take (k - i), c ≠ '\n' := by
  intro r
  induction r with
  | nil => intro i k tk h; cases h
  | cons c t ih =>
    intro i k tk h
    have hrec : plainScan (i + 1) t = some (k, tk) → ¬c = '\n' →
        i ≤ k ∧ matchToken ((c :: t).drop (k - i)) = some tk ∧
          endOK (((c :: t).drop (k - i)).drop tk.len) = true ∧
          ∀ x ∈ (c :: t).take (k - i), x ≠ '\n' := by
      intro hh hcnl
      obtain ⟨ih1, ih2, ih3, ih4⟩ := ih (i + 1) k tk hh
      have hd : k - i = (k - (i + 1)) + 1 := by omega
      rw [hd, List.drop_succ_cons, List.take_succ_cons]
      refine ⟨by omega, ih2, ih3, ?_⟩
      intro x hx
      rcases List.mem_cons.1 hx with h1 | h1
      · rw [h1]
        exact hcnl
      · exact ih4 x h1
    rw [plainScan] at h
    rcases hmt : matchToken (c :: t) with _ | tk' <;> rw [hmt] at h <;>
      (try dsimp only at h)
    · split_ifs at h with hnl
      exact hrec h hnl
    · by_cases he : endOK ((c :: t).drop tk'.len) = true
      · rw [if_pos he] at h
        have h1 := Option.some.inj h
        have hik : i = k := congrArg Prod.fst h1
        have htk : tk' = tk := congrArg Prod.snd h1
        subst hik
        subst htk
        simp only [Nat.sub_self, List.drop_zero, List.take_zero]
        exact ⟨le_rfl, hmt, he, by simp⟩
      · rw [if_neg he] at h
        split_ifs at h with hnl
        exact hrec h hnl

theorem fileScan_sound :
    ∀ (r : Str) (i k : Nat) (tk : Tok), fileScan i r = some (k, tk) →
      i ≤ k ∧ (r.drop (k - i)).head? = some '.' ∧
        matchToken (r.drop (k - i + 1)) = some tk ∧
        suffixOK ((r.drop (k - i + 1)).drop tk.len) = true := by
  intro r
  induction r with
  | nil => intro i k tk h; cases h
  | cons c t ih =>
    intro i k tk h
    have hrec : fileScan (i + 1) t = some (k, tk) →
        i ≤ k ∧ ((c :: t).drop (k - i)).head? = some '.' ∧
          matchToken ((c :: t).drop (k - i + 1)) = some tk ∧
          suffixOK (((c :: t).drop (k - i + 1)).drop tk.len) = true := by
      intro hh
      obtain ⟨ih1, ih2, ih3, ih4⟩ := ih (i + 1) k tk hh
      have hd : k - i = (k - (i + 1)) + 1 := by omega
      have hd2 : k - i + 1 = (k - (i + 1) + 1) + 1 := by omega
      rw [hd2, List.drop_succ_cons, hd, List.drop_succ_cons]
      exact ⟨by omega, ih2, ih3, ih4⟩
    rw [fileScan] at h
    by_cases hdot : c = '.'
    · rw [if_pos hdot] at h
      rcases hmt : matchToken t with _ | tk' <;> rw [hmt] at h <;>
        (try dsimp only at h)
      · exact hrec h
      · by_cases hsfx : suffixOK (t.drop tk'.len) = true
        · rw [if_pos hsfx] at h
          have h1 := Option.some.inj h
          have hik : i = k := congrArg Prod.fst h1
          have htk : tk' = tk := congrArg Prod.snd h1
          subst hik
          subst htk
          subst hdot
          simp only [Nat.sub_self, List.drop_zero, Nat.zero_add, List.head?_cons,
            List.drop_succ_cons]
          exact ⟨le_rfl, trivial, hmt, hsfx⟩
        · rw [if_neg hsfx] at h
          exact hrec h
    · rw [if_neg hdot] at h
      by_cases hnl : c = '\n'
      · rw [if_pos hnl] at h
        cases h
      · rw [if_neg hnl] at h
        exact hrec h

end ScanSoundness

/-- Soundness of `classifyPlain`: a successful classification comes from
the scan, and the plain pattern has no suffix group. -/
theorem classifyPlain_sound {key s : Str} {m : GMatch}
    (h : classifyPlain key s = .ok m) :
    plainScan 0 s = some (m.seqStart, m.tok) ∧ m.sfx = [] := by
  unfold classifyPlain at h
  split at h
  · cases h
  · next i tk hsc =>
    split_ifs at h with hk
    injection h with h1
    rw [← h1]
    exact ⟨hsc, rfl⟩

/-- Soundness of `classifyFile`: a successful classification comes from
the scan; the slot starts one past the matched dot and the suffix group
is derived from the rest after the slot. -/
theorem classifyFile_sound {key s : Str} {m : GMatch}
    (h : classifyFile key s = .ok m) :
    ∃ k, m.seqStart = k + 1 ∧ fileScan 0 s = some (k, m.tok) ∧
      m.sfx = suffixText ((s.drop (k + 1)).drop m.tok.len) := by
  unfold classifyFile at h
  split at h
  · cases h
  · next i tk hsc =>
    split_ifs at h with hk
    injection h with h1
    rw [← h1]
    exact ⟨i, rfl, hsc, rfl⟩


/-! ## C10: membership ignores the slot characters -/

/-- **C10**: `is_part_of_sequence` accepts every string of the source's
length that starts with the parsed prefix and ends with the parsed
suffix — the characters at the slot position are never inspected.  In
particular the sequence's own pound-rendered template at the instance
padding is accepted as a member whenever the slot width equals the
padding, and `num` of that template returns `None` (`.ok none`) rather
than raising. -/
theorem C10_membership_slot_free (st : PSt)
    (hb : st.m.seqStart + st.m.tok.len ≤ st.s.length)
    (hlp : st.m.tok.len = st.m.tok.padding)
    (hp : 1 ≤ st.m.tok.padding) :
    (∀ x : Str, x.length = st.s.length → st.pre.isPrefixOf x = true →
        st.sfx.isSuffixOf x = true → st.isPartOf x = true) ∧
    st.isPartOf (getPoundString st.s st.m none) = true ∧
    st.num (getPoundString st.s st.m none) = .ok none := by
  have hA : ∀ x : Str, x.length = st.s.length → st.pre.isPrefixOf x = true →
      st.sfx.isSuffixOf x = true → st.isPartOf x = true := by
    intro x h1 h2 h3
    simp [PSt.isPartOf, isPartCore, h1, h2, h3]
  have hb0 : (base0 st.s st.m).length = st.m.seqStart := by
    simp [base0, List.length_take]
    omega
  have hg : getPoundString st.s st.m none =
      base0 st.s st.m ++ (poundToken st.m.tok.padding ++ base1 st.s st.m) := by
    simp [getPoundString, List.append_assoc]
  have hlen : (getPoundString st.s st.m none).length = st.s.length := by
    rw [hg]
    simp [List.length_append, hb0, poundToken, base1, GMatch.seqEnd,
      List.length_replicate, List.length_drop]
    omega
  have hpre : st.pre.isPrefixOf (getPoundString st.s st.m none) = true := by
    rw [hg]
    have : st.pre = base0 st.s st.m := rfl
    rw [this, List.isPrefixOf_iff_prefix]
    exact List.prefix_append _ _
  have hsfx : st.sfx.isSuffixOf (getPoundString st.s st.m none) = true := by
    simp [PSt.sfx, List.isSuffixOf_iff_suffix]
  have hB : st.isPartOf (getPoundString st.s st.m none) = true :=
    hA _ hlen hpre hsfx
  refine ⟨hA, hB, ?_⟩
  have hdropg : (getPoundString st.s st.m none).drop st.m.seqStart =
      poundToken st.m.tok.padding ++ base1 st.s st.m := by
    rw [hg, ← hb0, List.drop_left]
  have hsl : ((getPoundString st.s st.m none).drop st.m.seqStart).take
      st.m.tok.padding = List.replicate st.m.tok.padding '#' := by
    rw [hdropg]
    exact List.take_left' (by simp [poundToken, List.length_replicate])
  have hisp : isPartCore st.s.length st.pre st.sfx
      (getPoundString st.s st.m none) = true := hB
  unfold PSt.num numCore
  rw [if_pos hisp]
  have hall : (List.replicate st.m.tok.padding '#').all isDigitC = false := by
    rcases hP : st.m.tok.padding with _ | k
    · omega
    · simp [List.replicate_succ, List.all_cons, isDigitC]
  simp only [hsl, hall, Bool.and_false, if_neg]
  simp

/-- Instantiation of the C10 theorem on the parsed sequence `"a1"`: the
non-digit-slot string `"a9"` is accepted, the pound template `"a#"` is
accepted, and `num "a#"` is `.ok none`. -/
theorem C10_membership_slot_free_witness :
    (PSt.mk ['a', '1'] ⟨1, ⟨.nums, 1, 1, []⟩, []⟩).isPartOf ['a', '9'] = true ∧
    (PSt.mk ['a', '1'] ⟨1, ⟨.nums, 1, 1, []⟩, []⟩).isPartOf
      (getPoundString ['a', '1'] ⟨1, ⟨.nums, 1, 1, []⟩, []⟩ none) = true ∧
    (PSt.mk ['a', '1'] ⟨1, ⟨.nums, 1, 1, []⟩, []⟩).num
      (getPoundString ['a', '1'] ⟨1, ⟨.nums, 1, 1, []⟩, []⟩ none) = .ok none := by
  obtain ⟨hA, hB, hC⟩ := C10_membership_slot_free
    ⟨['a', '1'], ⟨1, ⟨.nums, 1, 1, []⟩, []⟩⟩ (by decide) (by decide) (by decide)
  exact ⟨hA ['a', '9'] (by decide) (by decide) (by decide), hB, hC⟩


/-! ## C6: inclusion of the source's own number in the built index -/

theorem dget_overwrite (k : Option Int) (v : Str) :
    ∀ d : List (Option Int × Str), d.any (fun kv => kv.1 = k) = true →
      dget (d.map (fun kv => if kv.1 = k then (k, v) else kv)) k = some v := by
  intro d
  induction d with
  | nil => intro h; simp at h
  | cons a t ih =>
    intro h
    by_cases ha : a.1 = k
    · have hfa : (if a.1 = k then (k, v) else a) = (k, v) := if_pos ha
      unfold dget
      rw [List.map_cons, hfa, List.find?_cons_of_pos _ (by simp)]
      rfl
    · have ht : t.any (fun kv => kv.1 = k) = true := by
        rcases List.any_eq_true.mp h with ⟨x, hx, hpx⟩
        rcases List.mem_cons.mp hx with rfl | hx2
        · exact absurd (of_decide_eq_true hpx) ha
        · exact List.any_eq_true.mpr ⟨x, hx2, hpx⟩
      have hfa : (if a.1 = k then (k, v) else a) = a := if_neg ha
      unfold dget
      rw [List.map_cons, hfa, List.find?_cons_of_neg _ (by simp [ha])]
      exact ih ht

theorem dget_append_single (k : Option Int) (v : Str) :
    ∀ d : List (Option Int × Str), d.any (fun kv => kv.1 = k) = false →
      dget (d ++ [(k, v)]) k = some v := by
  intro d
  induction d with
  | nil =>
    intro _
    unfold dget
    rw [List.nil_append, List.find?_cons_of_pos _ (by simp)]
    rfl
  | cons a t ih =>
    intro h
    rw [List.any_cons] at h
    obtain ⟨h1, h2⟩ := Bool.or_eq_false_iff.mp h
    have ha : ¬(a.1 = k) := of_decide_eq_false h1
    unfold dget
    rw [List.cons_append, List.find?_cons_of_neg _ (by simp [ha])]
    exact ih h2

/-- `d[k] = v` followed by `d.get(k)` returns `v`. -/
theorem dget_dput (d : List (Option Int × Str)) (k : Option Int) (v : Str) :
    dget (dput d k v) k = some v := by
  unfold dput
  by_cases hany : d.any (fun kv => kv.1 = k) = true
  · rw [if_pos hany]
    exact dget_overwrite k v d hany
  · simp only [Bool.not_eq_true] at hany
    rw [if_neg (by simp [hany])]
    exact dget_append_single k v d hany

/-- **C6 (counterexample)**: the plain builder drops a *zero* current
number.  `"seq.0"` parses with current number `0`; building the index
from the explicit item list `["seq.1"]` produces an index that does not
contain the source string at all: `if self.currentItemNumber:` is false
for `0`. -/
theorem C6_counterexample :
    classifyPlain itemKey ['s', 'e', 'q', '.', '0'] =
      .ok ⟨4, ⟨.nums, 1, 1, []⟩, []⟩ ∧
    curNumOf ['s', 'e', 'q', '.', '0'] ⟨4, ⟨.nums, 1, 1, []⟩, []⟩ = some 0 ∧
    buildFromInputPlain ⟨['s', 'e', 'q', '.', '0'], ⟨4, ⟨.nums, 1, 1, []⟩, []⟩⟩
      [['s', 'e', 'q', '.', '1']] = .ok [(some 1, ['s', 'e', 'q', '.', '1'])] ∧
    dget [(some 1, ['s', 'e', 'q', '.', '1'])] (some 0) = none := by
  refine ⟨by decide, by decide, by decide, by decide⟩

/-- **C6 (amended)**: when the item index is built from an explicit item
list, a *nonzero* current number of a plain sequence is always included
as a key mapping to the source string (a zero current number is dropped
by the Python truthiness guard, see the counterexample); for a path
sequence the source is included under its `sourceNumber` whenever the
source is part of the sequence — there with no zero exclusion. -/
theorem C6_source_number_included (st : PSt) (stf : FSt)
    (input inputf : List Str) (n nf : Int)
    (d df : List (Option Int × Str))
    (h1 : curNumOf st.s st.m = some n) (h2 : n ≠ 0)
    (h3 : buildFromInputPlain st input = .ok d)
    (h4 : stf.isPartOf stf.s = true)
    (h5 : stf.num stf.s = .ok (some nf))
    (h6 : buildFromInputFile stf inputf = .ok df) :
    dget d (some n) = some st.s ∧ dget df (some nf) = some stf.s := by
  constructor
  · unfold buildFromInputPlain at h3
    rcases hf : input.foldlM
        (fun d it => (st.num it).map (fun n => dput d n it))
        ([] : List (Option Int × Str)) with e | d0 <;> rw [hf] at h3
    · cases h3
    · rw [h1] at h3
      dsimp only at h3
      rw [if_pos h2] at h3
      injection h3 with h3
      rw [← h3]
      exact dget_dput d0 (some n) st.s
  · unfold buildFromInputFile at h6
    rcases hf : inputf.foldlM
        (fun d it => if stf.isPartOf it then (stf.num it).map (fun n => dput d n it)
          else .ok d)
        ([] : List (Option Int × Str)) with e | d0 <;> rw [hf] at h6
    · cases h6
    · dsimp only at h6
      rw [if_pos h4, h5] at h6
      dsimp only [Except.map] at h6
      injection h6 with h6
      rw [← h6]
      exact dget_dput d0 (some nf) stf.s

/-- Instantiation of the C6 theorem: the plain sequence `"a1"` (current
number `1`) and the path sequence `"b.0"` (source number `0`), both built
from empty explicit item lists. -/
theorem C6_source_number_included_witness :
    dget [(some 1, ['a', '1'])] (some 1) = some ['a', '1'] ∧
    dget [(some 0, ['b', '.', '0'])] (some 0) = some ['b', '.', '0'] :=
  C6_source_number_included
    ⟨['a', '1'], ⟨1, ⟨.nums, 1, 1, []⟩, []⟩⟩
    ⟨['b', '.', '0'], ⟨2, ⟨.nums, 1, 1, []⟩, []⟩⟩
    [] [] 1 0 [(some 1, ['a', '1'])] [(some 0, ['b', '.', '0'])]
    (by decide) (by decide) (by decide) (by decide) (by decide) (by decide)


/-! ## C2: which slot is selected when several are eligible -/

/-- **C2**: the path classifier does NOT select the rightmost eligible
slot.  On the source docstring's own example
`"mySequence.0020.something.0001"` both `"0020"` (at index 11) and
`"0001"` (at index 26) are dot-preceded, suffix-anchored slot
candidates; the lazy prefix takes the shortest prefix, so classification
selects the LEFTMOST candidate `"0020"` — while the docstring
(`core.py` lines 1050-1057: “only the last sequence is used”, pointing
at `0001`) and the spec promise the rightmost.  The plain classifier,
whose anchor is the end of the string, does pick `"0001"`. -/
theorem C2_leftmost_slot_selected :
    fileSlotCandidate
      ['m', 'y', 'S', 'e', 'q', 'u', 'e', 'n', 'c', 'e', '.', '0', '0', '2',
        '0', '.', 's', 'o', 'm', 'e', 't', 'h', 'i', 'n', 'g', '.', '0', '0',
        '0', '1'] 26 = true ∧
    fileSlotCandidate
      ['m', 'y', 'S', 'e', 'q', 'u', 'e', 'n', 'c', 'e', '.', '0', '0', '2',
        '0', '.', 's', 'o', 'm', 'e', 't', 'h', 'i', 'n', 'g', '.', '0', '0',
        '0', '1'] 11 = true ∧
    classifyFile itemKey
      ['m', 'y', 'S', 'e', 'q', 'u', 'e', 'n', 'c', 'e', '.', '0', '0', '2',
        '0', '.', 's', 'o', 'm', 'e', 't', 'h', 'i', 'n', 'g', '.', '0', '0',
        '0', '1'] =
      .ok ⟨11, ⟨.nums, 4, 4, []⟩,
        ['.', 's', 'o', 'm', 'e', 't', 'h', 'i', 'n', 'g', '.', '0', '0', '0',
          '1']⟩ ∧
    classifyPlain itemKey
      ['m', 'y', 'S', 'e', 'q', 'u', 'e', 'n', 'c', 'e', '.', '0', '0', '2',
        '0', '.', 's', 'o', 'm', 'e', 't', 'h', 'i', 'n', 'g', '.', '0', '0',
        '0', '1'] =
      .ok ⟨26, ⟨.nums, 4, 4, []⟩, []⟩ := by
  refine ⟨by decide, by decide, by decide, by decide⟩


/-! ## C1: round-trip machinery — token-level forward computation -/

theorem takeWhile_all_append (p : Char → Bool) :
    ∀ (u w : Str), (∀ c ∈ u, p c = true) →
      (∀ c, w.head? = some c → p c = false) →
      (u ++ w).takeWhile p = u := by
  intro u
  induction u with
  | nil =>
    intro w _ hw
    rcases w with _ | ⟨c, t⟩
    · rfl
    · rw [List.nil_append]
      simp [List.takeWhile_cons, hw c rfl]
  | cons a u2 ih =>
    intro w hu hw
    have ha : p a = true := hu a (List.mem_cons_self a u2)
    rw [List.cons_append]
    simp [List.takeWhile_cons, ha,
      ih w (fun c hc => hu c (List.mem_cons_of_mem a hc)) hw]

theorem dropWhile_all_append (p : Char → Bool) :
    ∀ (u w : Str), (∀ c ∈ u, p c = true) →
      (∀ c, w.head? = some c → p c = false) →
      (u ++ w).dropWhile p = w := by
  intro u
  induction u with
  | nil =>
    intro w _ hw
    rcases w with _ | ⟨c, t⟩
    · rfl
    · rw [List.nil_append]
      simp [List.dropWhile_cons, hw c rfl]
  | cons a u2 ih =>
    intro w hu hw
    have ha : p a = true := hu a (List.mem_cons_self a u2)
    rw [List.cons_append]
    simp [List.dropWhile_cons, ha,
      ih w (fun c hc => hu c (List.mem_cons_of_mem a hc)) hw]

theorem getLast?_ne_of_all {l : Str} {p : Char → Bool}
    (h : ∀ c ∈ l, p c = true) {a : Char} (hp : p a = false) :
    l.getLast? ≠ some a := by
  intro hg
  have hm := h a (List.mem_of_mem_getLast? hg)
  rw [hp] at hm
  cases hm

theorem getLast?_drop_of_lt {l : Str} {j : Nat} (h : j < l.length) :
    (l.drop j).getLast? = l.getLast? := by
  have hne : l.drop j ≠ [] := by
    intro h0
    have := List.length_drop j l
    rw [h0] at this
    simp at this
    omega
  conv_rhs => rw [← List.take_append_drop j l]
  rw [List.getLast?_append_of_ne_nil _ hne]

theorem append_tail_cancel {x T b1 core rest : Str}
    (h : x ++ (T ++ b1) = core ++ rest)
    (hb1 : b1 = [] ∨ b1 = ['\n']) (hrest : rest = [] ∨ rest = ['\n'])
    (hT : T ≠ []) (hTl : T.getLast? ≠ some '\n')
    (hCl : core.getLast? ≠ some '\n') :
    core = x ++ T := by
  have hxT : (x ++ T).getLast? = T.getLast? :=
    List.getLast?_append_of_ne_nil x hT
  rcases hb1 with rfl | rfl <;> rcases hrest with rfl | rfl
  · rw [List.append_nil, List.append_nil] at h
    exact h.symm
  · rw [List.append_nil] at h
    exfalso
    apply hTl
    rw [← hxT, h, List.getLast?_append_of_ne_nil _ (by simp)]
    rfl
  · rw [List.append_nil] at h
    exfalso
    apply hCl
    rw [← h, ← List.append_assoc, List.getLast?_append_of_ne_nil _ (by simp)]
    rfl
  · rw [← List.append_assoc] at h
    exact (List.append_cancel_right h).symm

theorem numsTokM_head_not {c : Char} {t : Str} (h : isDigitC c = false) :
    numsTokM (c :: t) = none := by
  simp [numsTokM, List.takeWhile_cons, h]

theorem poundsTokM_head_not {c : Char} {t : Str} (h : ¬(c = '#')) :
    poundsTokM (c :: t) = none := by
  simp [poundsTokM, List.takeWhile_cons, h]

theorem rgxTokM_head_not {c : Char} {t : Str} (h : ¬(c = '\\')) :
    rgxTokM (c :: t) = none := by
  rcases t with _ | ⟨c2, t1⟩
  · rfl
  · rcases t1 with _ | ⟨c3, t2⟩
    · rfl
    · simp [rgxTokM, h]

theorem fmtTokM_head_not {c : Char} {t : Str} (h : ¬(c = '{')) :
    fmtTokM (c :: t) = none := by
  simp [fmtTokM, h]

theorem matchToken_eq_of_nums {r : Str} {tk : Tok} (h1 : numsTokM r = some tk) :
    matchToken r = some tk := by
  unfold matchToken
  rw [h1]
  rfl

theorem matchToken_eq_of_pounds {r : Str} {tk : Tok} (h1 : numsTokM r = none)
    (h2 : poundsTokM r = some tk) : matchToken r = some tk := by
  unfold matchToken
  rw [h1, h2]
  rfl

theorem matchToken_eq_of_rgx {r : Str} {tk : Tok} (h1 : numsTokM r = none)
    (h2 : poundsTokM r = none) (h3 : rgxTokM r = some tk) :
    matchToken r = some tk := by
  unfold matchToken
  rw [h1, h2, h3]
  rfl

theorem matchToken_eq_of_fmt {r : Str} {tk : Tok} (h1 : numsTokM r = none)
    (h2 : poundsTokM r = none) (h3 : rgxTokM r = none)
    (h4 : fmtTokM r = some tk) : matchToken r = some tk := by
  unfold matchToken
  rw [h1, h2, h3, h4]
  rfl

theorem matchToken_eq_of_pct {r : Str} {tk : Tok} (h1 : numsTokM r = none)
    (h2 : poundsTokM r = none) (h3 : rgxTokM r = none) (h4 : fmtTokM r = none)
    (h5 : pctTokM r = some tk) : matchToken r = some tk := by
  unfold matchToken
  rw [h1, h2, h3, h4, h5]
  rfl

theorem numsTokM_run {ds : Str} (hne : ds ≠ [])
    (hd : ∀ c ∈ ds, isDigitC c = true) {u : Str}
    (hu : ∀ c, u.head? = some c → isDigitC c = false) :
    numsTokM (ds ++ u) = some ⟨.nums, ds.length, ds.length, []⟩ := by
  have htw : (ds ++ u).takeWhile isDigitC = ds := takeWhile_all_append _ ds u hd hu
  unfold numsTokM
  rw [htw, if_neg (by simp [List.isEmpty_iff, hne])]

theorem poundsTokM_run {P : Nat} (hp : 1 ≤ P) {u : Str}
    (hu : ∀ c, u.head? = some c → ¬(c = '#')) :
    poundsTokM (List.replicate P '#' ++ u) = some ⟨.pounds, P, P, []⟩ := by
  have htw : (List.replicate P '#' ++ u).takeWhile (fun c => c = '#') =
      List.replicate P '#' := by
    apply takeWhile_all_append
    · intro c hc
      simp [List.eq_of_mem_replicate hc]
    · intro c hc
      simp [hu c hc]
  have hrep : ¬((List.replicate P '#').isEmpty = true) := by
    simp [List.isEmpty_iff]
    omega
  unfold poundsTokM
  rw [htw, if_neg hrep, List.length_replicate]

theorem rgxTokM_run {ds : Str} (rest : Str) (hne : ds ≠ [])
    (hd : ∀ c ∈ ds, isDigitC c = true) :
    rgxTokM ('\\' :: 'd' :: '{' :: (ds ++ '}' :: rest)) =
      some ⟨.rgx, 3 + ds.length + 1, decVal ds, []⟩ := by
  have hh : ∀ c : Char, ('}' :: rest).head? = some c → isDigitC c = false := by
    intro c hc
    injection hc with hc
    rw [← hc]
    decide
  have htw : (ds ++ '}' :: rest).takeWhile isDigitC = ds :=
    takeWhile_all_append _ ds _ hd hh
  have hdw : (ds ++ '}' :: rest).dropWhile isDigitC = '}' :: rest :=
    dropWhile_all_append _ ds _ hd hh
  unfold rgxTokM
  dsimp only
  rw [if_pos ⟨rfl, rfl, rfl⟩, htw, if_neg (by simp [List.isEmpty_iff, hne]), hdw]
  dsimp only
  rw [if_pos rfl]

theorem fmtTokM_run {w ds : Str} (rest : Str) (hwne : w ≠ [])
    (hww : ∀ c ∈ w, isWordC c = true) (hne : ds ≠ [])
    (hd : ∀ c ∈ ds, isDigitC c = true) :
    fmtTokM ('{' :: (w ++ ':' :: (ds ++ 'd' :: '}' :: rest))) =
      some ⟨.formatstring, 1 + w.length + 1 + ds.length + 2, decVal ds, w⟩ := by
  have hhd : ∀ c : Char, ('d' :: '}' :: rest).head? = some c →
      isDigitC c = false := by
    intro c hc
    injection hc with hc
    rw [← hc]
    decide
  have htw2 : (ds ++ 'd' :: '}' :: rest).takeWhile isDigitC = ds :=
    takeWhile_all_append _ ds _ hd hhd
  have hdw2 : (ds ++ 'd' :: '}' :: rest).dropWhile isDigitC = 'd' :: '}' :: rest :=
    dropWhile_all_append _ ds _ hd hhd
  have hhw : ∀ c : Char, (':' :: (ds ++ 'd' :: '}' :: rest)).head? = some c →
      isWordC c = false := by
    intro c hc
    injection hc with hc
    rw [← hc]
    decide
  have htw : (w ++ ':' :: (ds ++ 'd' :: '}' :: rest)).takeWhile isWordC = w :=
    takeWhile_all_append _ w _ hww hhw
  have hdw : (w ++ ':' :: (ds ++ 'd' :: '}' :: rest)).dropWhile isWordC =
      ':' :: (ds ++ 'd' :: '}' :: rest) :=
    dropWhile_all_append _ w _ hww hhw
  unfold fmtTokM
  dsimp only
  rw [if_pos rfl, htw, if_neg (by simp [List.isEmpty_iff, hwne]), hdw]
  dsimp only
  rw [if_pos rfl, htw2, if_neg (by simp [List.isEmpty_iff, hne]), hdw2]
  dsimp only
  rw [if_pos ⟨rfl, rfl⟩]

theorem pctTokM_run {ds : Str} (rest : Str) (hne : ds ≠ [])
    (hd : ∀ c ∈ ds, isDigitC c = true) :
    pctTokM ('%' :: (ds ++ 'd' :: rest)) =
      some ⟨.percent, 1 + ds.length + 1, decVal ds, []⟩ := by
  have hhd : ∀ c : Char, ('d' :: rest).head? = some c → isDigitC c = false := by
    intro c hc
    injection hc with hc
    rw [← hc]
    decide
  have htw : (ds ++ 'd' :: rest).takeWhile isDigitC = ds :=
    takeWhile_all_append _ ds _ hd hhd
  have hdw : (ds ++ 'd' :: rest).dropWhile isDigitC = 'd' :: rest :=
    dropWhile_all_append _ ds _ hd hhd
  unfold pctTokM
  dsimp only
  rw [if_pos rfl, htw, if_neg (by simp [List.isEmpty_iff, hne]), hdw]
  dsimp only
  rw [if_pos rfl]


/-! ## C1: full-match decomposition (a token whose match reaches the
end anchor determines the whole string's shape) -/

theorem drop_length_append {u v : Str} : (u ++ v).drop u.length = v :=
  List.drop_left u v

theorem drop_takeWhile_eq {p : Char → Bool} {r : Str} :
    r.drop (r.takeWhile p).length = r.dropWhile p := by
  have h1 : r.drop (r.takeWhile p).length =
      ((r.takeWhile p) ++ (r.dropWhile p)).drop (r.takeWhile p).length := by
    rw [List.takeWhile_append_dropWhile]
  rw [h1]
  exact drop_length_append

theorem endOK_cases {r : Str} (h : endOK r = true) : r = [] ∨ r = ['\n'] := by
  simpa [endOK] using h

theorem numsFull {r : Str} {tk : Tok} (h : numsTokM r = some tk)
    (hE : endOK (r.drop tk.len) = true) :
    ∃ core rest, r = core ++ rest ∧ (rest = [] ∨ rest = ['\n']) ∧
      core ≠ [] ∧ (∀ c ∈ core, isDigitC c = true) := by
  obtain ⟨hne, htk⟩ := numsTokM_inv h
  rw [htk] at hE
  dsimp only at hE
  rw [drop_takeWhile_eq] at hE
  exact ⟨r.takeWhile isDigitC, r.dropWhile isDigitC,
    (List.takeWhile_append_dropWhile _ _).symm, endOK_cases hE, hne,
    fun c hc => List.mem_takeWhile_imp hc⟩

theorem poundsFull {r : Str} {tk : Tok} (h : poundsTokM r = some tk)
    (hE : endOK (r.drop tk.len) = true) :
    ∃ core rest, r = core ++ rest ∧ (rest = [] ∨ rest = ['\n']) ∧
      core ≠ [] ∧ (∀ c ∈ core, c = '#') := by
  obtain ⟨hne, htk⟩ := poundsTokM_inv h
  rw [htk] at hE
  dsimp only at hE
  rw [drop_takeWhile_eq] at hE
  refine ⟨r.takeWhile (fun c => c = '#'), r.dropWhile (fun c => c = '#'),
    (List.takeWhile_append_dropWhile _ _).symm, endOK_cases hE, hne, ?_⟩
  intro c hc
  have h2 := List.mem_takeWhile_imp (p := fun x => decide (x = '#')) hc
  exact of_decide_eq_true h2

theorem rgxFull {r : Str} {tk : Tok} (h : rgxTokM r = some tk)
    (hE : endOK (r.drop tk.len) = true) :
    ∃ ds rest, r = ('\\' :: 'd' :: '{' :: (ds ++ ['}'])) ++ rest ∧
      (rest = [] ∨ rest = ['\n']) ∧ ds ≠ [] ∧ (∀ c ∈ ds, isDigitC c = true) := by
  obtain ⟨ds, rest, hr, hne, hd, htk⟩ := rgxTokM_inv h
  have hr2 : r = ('\\' :: 'd' :: '{' :: (ds ++ ['}'])) ++ rest := by
    rw [hr]
    simp
  have hlen : ('\\' :: 'd' :: '{' :: (ds ++ ['}'])).length = tk.len := by
    rw [htk]
    simp
    omega
  rw [hr2, ← hlen, drop_length_append] at hE
  exact ⟨ds, rest, hr2, endOK_cases hE, hne, hd⟩

theorem fmtFull {r : Str} {tk : Tok} (h : fmtTokM r = some tk)
    (hE : endOK (r.drop tk.len) = true) :
    ∃ w ds rest, r = ('{' :: (w ++ ':' :: (ds ++ ['d', '}']))) ++ rest ∧
      (rest = [] ∨ rest = ['\n']) ∧ w ≠ [] ∧ (∀ c ∈ w, isWordC c = true) ∧
      ds ≠ [] ∧ (∀ c ∈ ds, isDigitC c = true) := by
  obtain ⟨w, ds, rest, hr, hwne, hww, hne, hd, htk⟩ := fmtTokM_inv h
  have hr2 : r = ('{' :: (w ++ ':' :: (ds ++ ['d', '}']))) ++ rest := by
    rw [hr]
    simp
  have hlen : ('{' :: (w ++ ':' :: (ds ++ ['d', '}']))).length = tk.len := by
    rw [htk]
    simp
    omega
  rw [hr2, ← hlen, drop_length_append] at hE
  exact ⟨w, ds, rest, hr2, endOK_cases hE, hwne, hww, hne, hd⟩

theorem pctFull {r : Str} {tk : Tok} (h : pctTokM r = some tk)
    (hE : endOK (r.drop tk.len) = true) :
    ∃ ds rest, r = ('%' :: (ds ++ ['d'])) ++ rest ∧
      (rest = [] ∨ rest = ['\n']) ∧ ds ≠ [] ∧ (∀ c ∈ ds, isDigitC c = true) := by
  obtain ⟨ds, rest, hr, hne, hd, htk⟩ := pctTokM_inv h
  have hr2 : r = ('%' :: (ds ++ ['d'])) ++ rest := by
    rw [hr]
    simp
  have hlen : ('%' :: (ds ++ ['d'])).length = tk.len := by
    rw [htk]
    simp
    omega
  rw [hr2, ← hlen, drop_length_append] at hE
  exact ⟨ds, rest, hr2, endOK_cases hE, hne, hd⟩

theorem numsFull_chars {r : Str} {tk : Tok} (h : numsTokM r = some tk)
    (hE : endOK (r.drop tk.len) = true) :
    ∀ c ∈ r, isDigitC c = true ∨ c = '\n' := by
  obtain ⟨core, rest, hr, hrest, _, hcall⟩ := numsFull h hE
  intro c hc
  rw [hr] at hc
  rcases List.mem_append.mp hc with h1 | h1
  · exact Or.inl (hcall c h1)
  · rcases hrest with rfl | rfl
    · cases h1
    · exact Or.inr (List.mem_singleton.mp h1)

theorem poundsFull_chars {r : Str} {tk : Tok} (h : poundsTokM r = some tk)
    (hE : endOK (r.drop tk.len) = true) :
    ∀ c ∈ r, c = '#' ∨ c = '\n' := by
  obtain ⟨core, rest, hr, hrest, _, hcall⟩ := poundsFull h hE
  intro c hc
  rw [hr] at hc
  rcases List.mem_append.mp hc with h1 | h1
  · exact Or.inl (hcall c h1)
  · rcases hrest with rfl | rfl
    · cases h1
    · exact Or.inr (List.mem_singleton.mp h1)

theorem rgxFull_chars {r : Str} {tk : Tok} (h : rgxTokM r = some tk)
    (hE : endOK (r.drop tk.len) = true) :
    ∀ c ∈ r, (c = '\\' ∨ c = 'd' ∨ c = '{' ∨ c = '}' ∨ isDigitC c = true) ∨
      c = '\n' := by
  obtain ⟨ds, rest, hr, hrest, _, hd⟩ := rgxFull h hE
  intro c hc
  rw [hr] at hc
  rcases List.mem_append.mp hc with h1 | h1
  · simp only [List.mem_cons, List.mem_append, List.mem_singleton,
      List.not_mem_nil, or_false] at h1
    rcases h1 with rfl | rfl | rfl | h1 | rfl
    · exact Or.inl (Or.inl rfl)
    · exact Or.inl (Or.inr (Or.inl rfl))
    · exact Or.inl (Or.inr (Or.inr (Or.inl rfl)))
    · exact Or.inl (Or.inr (Or.inr (Or.inr (Or.inr (hd c h1)))))
    · exact Or.inl (Or.inr (Or.inr (Or.inr (Or.inl rfl))))
  · rcases hrest with rfl | rfl
    · cases h1
    · exact Or.inr (List.mem_singleton.mp h1)

theorem fmtFull_chars {r : Str} {tk : Tok} (h : fmtTokM r = some tk)
    (hE : endOK (r.drop tk.len) = true) :
    ∀ c ∈ r, (c = '{' ∨ c = ':' ∨ c = 'd' ∨ c = '}' ∨ isWordC c = true ∨
      isDigitC c = true) ∨ c = '\n' := by
  obtain ⟨w, ds, rest, hr, hrest, _, hww, _, hd⟩ := fmtFull h hE
  intro c hc
  rw [hr] at hc
  rcases List.mem_append.mp hc with h1 | h1
  · simp only [List.mem_cons, List.mem_append, List.mem_singleton,
      List.not_mem_nil, or_false] at h1
    rcases h1 with rfl | h1 | rfl | h1 | rfl | rfl
    · exact Or.inl (Or.inl rfl)
    · exact Or.inl (Or.inr (Or.inr (Or.inr (Or.inr (Or.inl (hww c h1))))))
    · exact Or.inl (Or.inr (Or.inl rfl))
    · exact Or.inl (Or.inr (Or.inr (Or.inr (Or.inr (Or.inr (hd c h1))))))
    · exact Or.inl (Or.inr (Or.inr (Or.inl rfl)))
    · exact Or.inl (Or.inr (Or.inr (Or.inr (Or.inl rfl))))
  · rcases hrest with rfl | rfl
    · cases h1
    · exact Or.inr (List.mem_singleton.mp h1)

theorem pctFull_chars {r : Str} {tk : Tok} (h : pctTokM r = some tk)
    (hE : endOK (r.drop tk.len) = true) :
    ∀ c ∈ r, (c = '%' ∨ c = 'd' ∨ isDigitC c = true) ∨ c = '\n' := by
  obtain ⟨ds, rest, hr, hrest, _, hd⟩ := pctFull h hE
  intro c hc
  rw [hr] at hc
  rcases List.mem_append.mp hc with h1 | h1
  · simp only [List.mem_cons, List.mem_append, List.mem_singleton,
      List.not_mem_nil, or_false] at h1
    rcases h1 with rfl | h1 | rfl
    · exact Or.inl (Or.inl rfl)
    · exact Or.inl (Or.inr (Or.inr (hd c h1)))
    · exact Or.inl (Or.inr (Or.inl rfl))
  · rcases hrest with rfl | rfl
    · cases h1
    · exact Or.inr (List.mem_singleton.mp h1)

/-! ## C1: the lazy scan stops exactly at the rendered slot -/

theorem plainScan_locate {w : Str} {tk : Tok}
    (hw : matchToken w = some tk) (hend : endOK (w.drop tk.len) = true) :
    ∀ (u : Str) (i : Nat),
      (∀ j, j < u.length → ∀ tk2, matchToken (u.drop j ++ w) = some tk2 →
        endOK ((u.drop j ++ w).drop tk2.len) = false) →
      (∀ c ∈ u, c ≠ '\n') →
      plainScan i (u ++ w) = some (i + u.length, tk) := by
  intro u
  induction u with
  | nil =>
    intro i _ _
    rw [List.nil_append]
    rcases hww : w with _ | ⟨c, t⟩
    · rw [hww] at hw
      have h0 : matchToken ([] : Str) = none := rfl
      rw [h0] at hw
      cases hw
    · rw [hww] at hw hend
      rw [plainScan, hw]
      dsimp only
      rw [if_pos hend]
      simp
  | cons c u2 ih =>
    intro i hfail hnl
    have hc : ¬(c = '\n') := hnl c (List.mem_cons_self c u2)
    have hfail2 : ∀ j, j < u2.length → ∀ tk2,
        matchToken (u2.drop j ++ w) = some tk2 →
        endOK ((u2.drop j ++ w).drop tk2.len) = false := by
      intro j hj tk2 hm
      have := hfail (j + 1) (by simp [List.length_cons]; omega) tk2
        (by simpa [List.drop_succ_cons] using hm)
      simpa [List.drop_succ_cons] using this
    have hnl2 : ∀ x ∈ u2, x ≠ '\n' := fun x hx => hnl x (List.mem_cons_of_mem c hx)
    have hrec := ih (i + 1) hfail2 hnl2
    rw [List.cons_append, plainScan]
    rcases hmt : matchToken (c :: (u2 ++ w)) with _ | tk2
    · dsimp only
      rw [if_neg hc, hrec]
      have harith : i + 1 + u2.length = i + (c :: u2).length := by
        simp [List.length_cons]
        omega
      rw [harith]
    · have hf0 := hfail 0 (by simp [List.length_cons]) tk2
        (by simpa using hmt)
      dsimp only
      rw [if_neg (by simp only [List.nil_append, List.drop_zero,
        List.cons_append] at hf0; simp [hf0]), if_neg hc, hrec]
      have harith : i + 1 + u2.length = i + (c :: u2).length := by
        simp [List.length_cons]
        omega
      rw [harith]


/-! ## C1: no earlier scan position can match in a rendered string -/

theorem lastChar_conflict {x T core : Str} {a : Char}
    (hTne : T ≠ []) (hTd : ∀ c ∈ T, isDigitC c = true)
    (hcore : core = x ++ T) (hlc : core.getLast? = some a)
    (ha : isDigitC a = false) : False := by
  have h2 : (x ++ T).getLast? = T.getLast? := List.getLast?_append_of_ne_nil x hTne
  rw [hcore, h2] at hlc
  have h3 := hTd a (List.mem_of_mem_getLast? hlc)
  rw [ha] at h3
  cases h3

theorem drop_ne_nil_of_lt {l : Str} {j : Nat} (h : j < l.length) :
    l.drop j ≠ [] := by
  intro h0
  have hl := List.length_drop j l
  rw [h0] at hl
  simp at hl
  omega

theorem noHijack_pound (b0 b1 : Str) (P : Nat) (hp : 1 ≤ P)
    (hb1 : b1 = [] ∨ b1 = ['\n'])
    (hlast : b0.getLast? ≠ some '#') :
    ∀ j, j < b0.length → ∀ tk2,
      matchToken (b0.drop j ++ (poundToken P ++ b1)) = some tk2 →
      endOK ((b0.drop j ++ (poundToken P ++ b1)).drop tk2.len) = false := by
  intro j hj tk2 hm
  cases hE : endOK ((b0.drop j ++ (poundToken P ++ b1)).drop tk2.len) with
  | false => rfl
  | true =>
    exfalso
    have hx : b0.drop j ≠ [] := drop_ne_nil_of_lt hj
    have hhash : '#' ∈ poundToken P := by
      unfold poundToken
      exact List.mem_replicate.mpr ⟨by omega, rfl⟩
    have hmem : '#' ∈ b0.drop j ++ (poundToken P ++ b1) :=
      List.mem_append_right _ (List.mem_append_left _ hhash)
    rcases matchToken_eq_some hm with hc | hc | hc | hc | hc
    · rcases numsFull_chars hc hE '#' hmem with hd | hd
      · exact absurd hd (by decide)
      · exact absurd hd (by decide)
    · obtain ⟨core, rest, hr, hrest, hcne, hcall⟩ := poundsFull hc hE
      have hTne : poundToken P ≠ [] := by
        intro h0
        rw [h0] at hhash
        cases hhash
      have hTl : (poundToken P).getLast? ≠ some '\n' := by
        intro hg
        have h0 := List.mem_of_mem_getLast? hg
        simp [poundToken] at h0
      have hCl : core.getLast? ≠ some '\n' := by
        intro hg
        have h1 := hcall '\n' (List.mem_of_mem_getLast? hg)
        exact absurd h1 (by decide)
      have hcore : core = b0.drop j ++ poundToken P :=
        append_tail_cancel hr hb1 hrest hTne hTl hCl
      rcases hgl : (b0.drop j).getLast? with _ | c
      · have h2 := List.getLast?_isSome.mpr hx
        rw [hgl] at h2
        cases h2
      · have hcmem : c ∈ b0.drop j := List.mem_of_mem_getLast? hgl
        have hch : c = '#' :=
          hcall c (by rw [hcore]; exact List.mem_append_left _ hcmem)
        apply hlast
        rw [← getLast?_drop_of_lt hj, hgl, hch]
    · rcases rgxFull_chars hc hE '#' hmem with hd | hd
      · exact absurd hd (by decide)
      · exact absurd hd (by decide)
    · rcases fmtFull_chars hc hE '#' hmem with hd | hd
      · exact absurd hd (by decide)
      · exact absurd hd (by decide)
    · rcases pctFull_chars hc hE '#' hmem with hd | hd
      · exact absurd hd (by decide)
      · exact absurd hd (by decide)

theorem noHijack_digits (b0 b1 T : Str)
    (hb1 : b1 = [] ∨ b1 = ['\n']) (hTne : T ≠ []) (hTd : ∀ c ∈ T, isDigitC c = true)
    (hlast : ∀ hd, b0.getLast? = some hd → isDigitC hd = false) :
    ∀ j, j < b0.length → ∀ tk2,
      matchToken (b0.drop j ++ (T ++ b1)) = some tk2 →
      endOK ((b0.drop j ++ (T ++ b1)).drop tk2.len) = false := by
  intro j hj tk2 hm
  cases hE : endOK ((b0.drop j ++ (T ++ b1)).drop tk2.len) with
  | false => rfl
  | true =>
    exfalso
    have hx : b0.drop j ≠ [] := drop_ne_nil_of_lt hj
    obtain ⟨t0, ht0⟩ := List.exists_mem_of_ne_nil T hTne
    have ht0d : isDigitC t0 = true := hTd t0 ht0
    have ht0nl : ¬(t0 = '\n') := by
      intro h0
      rw [h0] at ht0d
      exact absurd ht0d (by decide)
    have hmem : t0 ∈ b0.drop j ++ (T ++ b1) :=
      List.mem_append_right _ (List.mem_append_left _ ht0)
    have hTl : T.getLast? ≠ some '\n' := getLast?_ne_of_all hTd (by decide)
    rcases matchToken_eq_some hm with hc | hc | hc | hc | hc
    · obtain ⟨core, rest, hr, hrest, hcne, hcall⟩ := numsFull hc hE
      have hCl : core.getLast? ≠ some '\n' := getLast?_ne_of_all hcall (by decide)
      have hcore : core = b0.drop j ++ T :=
        append_tail_cancel hr hb1 hrest hTne hTl hCl
      rcases hgl : (b0.drop j).getLast? with _ | c
      · have h2 := List.getLast?_isSome.mpr hx
        rw [hgl] at h2
        cases h2
      · have hcmem : c ∈ b0.drop j := List.mem_of_mem_getLast? hgl
        have hcd : isDigitC c = true :=
          hcall c (by rw [hcore]; exact List.mem_append_left _ hcmem)
        have h3 := hlast c (by rw [← getLast?_drop_of_lt hj, hgl])
        rw [h3] at hcd
        cases hcd
    · rcases poundsFull_chars hc hE t0 hmem with hd | hd
      · rw [hd] at ht0d
        exact absurd ht0d (by decide)
      · exact ht0nl hd
    · obtain ⟨ds, rest, hr, hrest, hdne, hdd⟩ := rgxFull hc hE
      have hsp : ('\\' :: 'd' :: '{' :: (ds ++ ['}'])) =
          ('\\' :: 'd' :: '{' :: ds) ++ ['}'] := by
        simp
      have hlc : ('\\' :: 'd' :: '{' :: (ds ++ ['}'])).getLast? = some '}' := by
        rw [hsp, List.getLast?_concat]
      have hCl : ('\\' :: 'd' :: '{' :: (ds ++ ['}'])).getLast? ≠ some '\n' := by
        rw [hlc]
        simp
      have hcore := append_tail_cancel hr hb1 hrest hTne hTl hCl
      exact lastChar_conflict hTne hTd hcore hlc (by decide)
    · obtain ⟨w, ds, rest, hr, hrest, hwne, hww, hdne, hdd⟩ := fmtFull hc hE
      have hsp : ('{' :: (w ++ ':' :: (ds ++ ['d', '}']))) =
          ('{' :: (w ++ ':' :: (ds ++ ['d']))) ++ ['}'] := by
        simp
      have hlc : ('{' :: (w ++ ':' :: (ds ++ ['d', '}']))).getLast? = some '}' := by
        rw [hsp, List.getLast?_concat]
      have hCl : ('{' :: (w ++ ':' :: (ds ++ ['d', '}']))).getLast? ≠ some '\n' := by
        rw [hlc]
        simp
      have hcore := append_tail_cancel hr hb1 hrest hTne hTl hCl
      exact lastChar_conflict hTne hTd hcore hlc (by decide)
    · obtain ⟨ds, rest, hr, hrest, hdne, hdd⟩ := pctFull hc hE
      have hsp : ('%' :: (ds ++ ['d'])) = ('%' :: ds) ++ ['d'] := by
        simp
      have hlc : ('%' :: (ds ++ ['d'])).getLast? = some 'd' := by
        rw [hsp, List.getLast?_concat]
      have hCl : ('%' :: (ds ++ ['d'])).getLast? ≠ some '\n' := by
        rw [hlc]
        simp
      have hcore := append_tail_cancel hr hb1 hrest hTne hTl hCl
      exact lastChar_conflict hTne hTd hcore hlc (by decide)


theorem noHijack_rgx (b0 b1 : Str) (P : Nat) :
    ∀ j, j < b0.length → ∀ tk2,
      matchToken (b0.drop j ++ (rgxToken P ++ b1)) = some tk2 →
      endOK ((b0.drop j ++ (rgxToken P ++ b1)).drop tk2.len) = false := by
  intro j hj tk2 hm
  cases hE : endOK ((b0.drop j ++ (rgxToken P ++ b1)).drop tk2.len) with
  | false => rfl
  | true =>
    exfalso
    have hx : b0.drop j ≠ [] := drop_ne_nil_of_lt hj
    have hbs : '\\' ∈ rgxToken P := by
      unfold rgxToken
      exact List.mem_append_left _ (List.mem_cons_self _ _)
    have hmem : '\\' ∈ b0.drop j ++ (rgxToken P ++ b1) :=
      List.mem_append_right _ (List.mem_append_left _ hbs)
    rcases matchToken_eq_some hm with hc | hc | hc | hc | hc
    · rcases numsFull_chars hc hE '\\' hmem with hd | hd
      · exact absurd hd (by decide)
      · exact absurd hd (by decide)
    · rcases poundsFull_chars hc hE '\\' hmem with hd | hd
      · exact absurd hd (by decide)
      · exact absurd hd (by decide)
    · obtain ⟨ds, rest, hr, hrest, hdne, hdd⟩ := rgxFull hc hE
      rcases hxc : b0.drop j with _ | ⟨c0, x2⟩
      · exact hx hxc
      · rw [hxc] at hr
        rw [show ('\\' :: 'd' :: '{' :: (ds ++ ['}'])) ++ rest =
          '\\' :: ('d' :: '{' :: (ds ++ ['}']) ++ rest) from by simp] at hr
        rw [List.cons_append] at hr
        have htl : x2 ++ (rgxToken P ++ b1) =
            'd' :: '{' :: (ds ++ ['}']) ++ rest := by
          injection hr with h1 h2
        have hin : '\\' ∈ x2 ++ (rgxToken P ++ b1) :=
          List.mem_append_right _ (List.mem_append_left _ hbs)
        rw [htl] at hin
        simp only [List.cons_append, List.mem_cons, List.mem_append,
          List.mem_singleton, List.not_mem_nil, or_false] at hin
        rcases hin with h1 | h1 | h1 | h1
        · exact absurd h1 (by decide)
        · exact absurd h1 (by decide)
        · rcases h1 with h1 | h1
          · have := hdd _ h1
            exact absurd this (by decide)
          · exact absurd h1 (by decide)
        · rcases hrest with rfl | rfl
          · cases h1
          · rcases List.mem_singleton.mp h1 with h2
            exact absurd h2 (by decide)
    · rcases fmtFull_chars hc hE '\\' hmem with hd | hd
      · exact absurd hd (by decide)
      · exact absurd hd (by decide)
    · rcases pctFull_chars hc hE '\\' hmem with hd | hd
      · exact absurd hd (by decide)
      · exact absurd hd (by decide)

theorem noHijack_fmt (b0 b1 : Str) (P : Nat) :
    ∀ j, j < b0.length → ∀ tk2,
      matchToken (b0.drop j ++ (fmtToken itemKey P ++ b1)) = some tk2 →
      endOK ((b0.drop j ++ (fmtToken itemKey P ++ b1)).drop tk2.len) = false := by
  intro j hj tk2 hm
  cases hE : endOK ((b0.drop j ++ (fmtToken itemKey P ++ b1)).drop tk2.len) with
  | false => rfl
  | true =>
    exfalso
    have hx : b0.drop j ≠ [] := drop_ne_nil_of_lt hj
    have hbr : '{' ∈ fmtToken itemKey P := by
      unfold fmtToken
      exact List.mem_append_left _ (List.mem_append_left _ (List.mem_cons_self _ _))
    have hcol : ':' ∈ fmtToken itemKey P := by
      unfold fmtToken
      exact List.mem_append_left _
        (List.mem_append_right _ (List.mem_cons_self _ _))
    have hmem : '{' ∈ b0.drop j ++ (fmtToken itemKey P ++ b1) :=
      List.mem_append_right _ (List.mem_append_left _ hbr)
    have hmemc : ':' ∈ b0.drop j ++ (fmtToken itemKey P ++ b1) :=
      List.mem_append_right _ (List.mem_append_left _ hcol)
    rcases matchToken_eq_some hm with hc | hc | hc | hc | hc
    · rcases numsFull_chars hc hE '{' hmem with hd | hd
      · exact absurd hd (by decide)
      · exact absurd hd (by decide)
    · rcases poundsFull_chars hc hE '{' hmem with hd | hd
      · exact absurd hd (by decide)
      · exact absurd hd (by decide)
    · rcases rgxFull_chars hc hE ':' hmemc with hd | hd
      · exact absurd hd (by decide)
      · exact absurd hd (by decide)
    · obtain ⟨w, ds, rest, hr, hrest, hwne, hww, hdne, hdd⟩ := fmtFull hc hE
      rcases hxc : b0.drop j with _ | ⟨c0, x2⟩
      · exact hx hxc
      · rw [hxc] at hr
        rw [show ('{' :: (w ++ ':' :: (ds ++ ['d', '}']))) ++ rest =
          '{' :: ((w ++ ':' :: (ds ++ ['d', '}'])) ++ rest) from by simp] at hr
        rw [List.cons_append] at hr
        have htl : x2 ++ (fmtToken itemKey P ++ b1) =
            (w ++ ':' :: (ds ++ ['d', '}'])) ++ rest := by
          injection hr with h1 h2
        have hin : '{' ∈ x2 ++ (fmtToken itemKey P ++ b1) :=
          List.mem_append_right _ (List.mem_append_left _ hbr)
        rw [htl] at hin
        simp only [List.cons_append, List.mem_cons, List.mem_append,
          List.mem_singleton, List.not_mem_nil, or_false] at hin
        rcases hin with (h1 | h1 | h1 | h1) | h1
        · have := hww _ h1
          exact absurd this (by decide)
        · exact absurd h1 (by decide)
        · have := hdd _ h1
          exact absurd this (by decide)
        · rcases h1 with h1 | h1
          · exact absurd h1 (by decide)
          · exact absurd h1 (by decide)
        · rcases hrest with rfl | rfl
          · cases h1
          · rcases List.mem_singleton.mp h1 with h2
            exact absurd h2 (by decide)
    · rcases pctFull_chars hc hE '{' hmem with hd | hd
      · exact absurd hd (by decide)
      · exact absurd hd (by decide)

theorem noHijack_pct (b0 b1 : Str) (P : Nat) :
    ∀ j, j < b0.length → ∀ tk2,
      matchToken (b0.drop j ++ (pctToken P ++ b1)) = some tk2 →
      endOK ((b0.drop j ++ (pctToken P ++ b1)).drop tk2.len) = false := by
  intro j hj tk2 hm
  cases hE : endOK ((b0.drop j ++ (pctToken P ++ b1)).drop tk2.len) with
  | false => rfl
  | true =>
    exfalso
    have hx : b0.drop j ≠ [] := drop_ne_nil_of_lt hj
    have hpc : '%' ∈ pctToken P := by
      unfold pctToken
      exact List.mem_cons_self _ _
    have hmem : '%' ∈ b0.drop j ++ (pctToken P ++ b1) :=
      List.mem_append_right _ (List.mem_append_left _ hpc)
    rcases matchToken_eq_some hm with hc | hc | hc | hc | hc
    · rcases numsFull_chars hc hE '%' hmem with hd | hd
      · exact absurd hd (by decide)
      · exact absurd hd (by decide)
    · rcases poundsFull_chars hc hE '%' hmem with hd | hd
      · exact absurd hd (by decide)
      · exact absurd hd (by decide)
    · rcases rgxFull_chars hc hE '%' hmem with hd | hd
      · exact absurd hd (by decide)
      · exact absurd hd (by decide)
    · rcases fmtFull_chars hc hE '%' hmem with hd | hd
      · exact absurd hd (by decide)
      · exact absurd hd (by decide)
    · obtain ⟨ds, rest, hr, hrest, hdne, hdd⟩ := pctFull hc hE
      rcases hxc : b0.drop j with _ | ⟨c0, x2⟩
      · exact hx hxc
      · rw [hxc] at hr
        rw [show ('%' :: (ds ++ ['d'])) ++ rest =
          '%' :: ((ds ++ ['d']) ++ rest) from by simp] at hr
        rw [List.cons_append] at hr
        have htl : x2 ++ (pctToken P ++ b1) = (ds ++ ['d']) ++ rest := by
          injection hr with h1 h2
        have hin : '%' ∈ x2 ++ (pctToken P ++ b1) :=
          List.mem_append_right _ (List.mem_append_left _ hpc)
        rw [htl] at hin
        simp only [List.mem_cons, List.mem_append, List.mem_singleton,
          List.not_mem_nil, or_false] at hin
        rcases hin with (h1 | h1) | h1
        · have := hdd _ h1
          exact absurd this (by decide)
        · exact absurd h1 (by decide)
        · rcases hrest with rfl | rfl
          · cases h1
          · rcases List.mem_singleton.mp h1 with h2
            exact absurd h2 (by decide)


/-! ## C1: glue lemmas and the round-trip results -/

theorem decVal_cons_zero (ds : Str) : decVal ('0' :: ds) = decVal ds := by
  unfold decVal
  rw [List.foldl_cons]
  have h0 : 10 * 0 + digitVal '0' = 0 := by decide
  rw [h0]

theorem escBr_eq_self : ∀ l : Str, (∀ c ∈ l, c ≠ '[') → escBr l = l := by
  intro l
  induction l with
  | nil => intro _; rfl
  | cons a t ih =>
    intro h
    have ha : ¬(a = '[') := h a (List.mem_cons_self a t)
    have ht := ih (fun c hc => h c (List.mem_cons_of_mem a hc))
    unfold escBr at ht ⊢
    rw [List.flatMap_cons, if_neg ha, ht]
    rfl

/-- **C1 (counterexample)**: the round-trip law fails as stated.  The
plain string `"##12"` parses as a digits-flavor sequence `"12"` with
padding 2 and prefix `"##"`; its pound rendering at padding 2 is
`"####"`, which re-classifies as a placeholder-run of padding 4 — not
flavor-preserving, and padding 4 ≠ 2. -/
theorem C1_counterexample :
    classifyPlain itemKey ['#', '#', '1', '2'] = .ok ⟨2, ⟨.nums, 2, 2, []⟩, []⟩ ∧
    getPoundString ['#', '#', '1', '2'] ⟨2, ⟨.nums, 2, 2, []⟩, []⟩ (some 2) =
      ['#', '#', '#', '#'] ∧
    classifyPlain itemKey ['#', '#', '#', '#'] =
      .ok ⟨0, ⟨.pounds, 4, 4, []⟩, []⟩ ∧
    (4 : Nat) ≠ 2 := by
  refine ⟨by decide, by decide, by decide, by decide⟩


theorem drop_len_append {u v : Str} {L : Nat} (h : u.length = L) :
    (u ++ v).drop L = v := by
  rw [← h]
  exact drop_length_append

/-- **C1 (amended)**: the round-trip law holds for every renderer and
requested padding `P ≥ 1` under shape conditions on the surrounding
text: pound rendering round-trips when the prefix does not end in `#`;
`get_string` (digits) rendering when the prefix does not end in a
digit, `0 ≤ n < 10^P`, and the text around the slot is brace-free (so
`str.format` performs only the slot's own substitution); regex
rendering when the source contains no `[` (whose escaping would shift
the text); format and percent rendering unconditionally.  Each re-classification reproduces the renderer's
flavor, the requested padding `P`, and the original slot position. -/
theorem C1_padding_roundtrip (s : Str) (m : GMatch) (P : Nat) (n : Int)
    (hcls : classifyPlain itemKey s = .ok m) (hp : 1 ≤ P) :
    ((base0 s m).getLast? ≠ some '#' →
      classifyPlain itemKey (getPoundString s m (some P)) =
        .ok ⟨m.seqStart, ⟨.pounds, P, P, []⟩, []⟩) ∧
    ((∀ d, (base0 s m).getLast? = some d → isDigitC d = false) → 0 ≤ n →
      n < (10 : Int) ^ P →
      (∀ c ∈ base0 s m ++ base1 s m, c ≠ '{' ∧ c ≠ '}') →
      getString s m n (some P) = some (formatJoin s m n P) ∧
      classifyPlain itemKey (formatJoin s m n P) =
        .ok ⟨m.seqStart, ⟨.nums, P, P, []⟩, []⟩) ∧
    ((∀ c ∈ s, c ≠ '[') →
      classifyPlain itemKey (getRegexString s m (some P)) =
        .ok ⟨m.seqStart, ⟨.rgx, 3 + (natDigits P).length + 1, P, []⟩, []⟩) ∧
    (classifyPlain itemKey (getFormatString s m itemKey (some P)) =
      .ok ⟨m.seqStart, ⟨.formatstring,
        1 + itemKey.length + 1 + ('0' :: natDigits P).length + 2, P,
        itemKey⟩, []⟩) ∧
    (classifyPlain itemKey (getPercentString s m (some P)) =
      .ok ⟨m.seqStart, ⟨.percent, 1 + ('0' :: natDigits P).length + 1, P, []⟩,
        []⟩) := by
  obtain ⟨hscan0, _⟩ := classifyPlain_sound hcls
  obtain ⟨_, hmt0, hE0, hnl0⟩ := plainScan_sound s 0 m.seqStart m.tok hscan0
  simp only [Nat.sub_zero] at hmt0 hE0 hnl0
  have hlt : m.seqStart < s.length := by
    by_contra hge
    have hd : s.drop m.seqStart = [] := List.drop_eq_nil_of_le (by omega)
    rw [hd] at hmt0
    have h0 : matchToken ([] : Str) = none := rfl
    rw [h0] at hmt0
    cases hmt0
  have hb0len : (base0 s m).length = m.seqStart := by
    simp [base0]
    omega
  have hb1 : base1 s m = [] ∨ base1 s m = ['\n'] := by
    have hbd : base1 s m = (s.drop m.seqStart).drop m.tok.len := by
      unfold base1 GMatch.seqEnd
      rw [← List.drop_drop]
    rw [hbd]
    exact endOK_cases hE0
  have hEb1 : endOK (base1 s m) = true := by
    rcases hb1 with h | h <;> rw [h] <;> decide
  have hnlb0 : ∀ c ∈ base0 s m, c ≠ '\n' := fun c hc => hnl0 c hc
  have hb1hd_digit : ∀ c, (base1 s m).head? = some c → isDigitC c = false := by
    intro c hcc
    rcases hb1 with h | h <;> rw [h] at hcc
    · cases hcc
    · injection hcc with hcc
      rw [← hcc]
      decide
  have hb1hd_hash : ∀ c, (base1 s m).head? = some c → ¬(c = '#') := by
    intro c hcc
    rcases hb1 with h | h <;> rw [h] at hcc
    · cases hcc
    · injection hcc with hcc
      rw [← hcc]
      decide
  refine ⟨?_, ?_, ?_, ?_, ?_⟩
  · -- pound rendering
    intro hpound
    have hT : getPoundString s m (some P) =
        base0 s m ++ (poundToken P ++ base1 s m) := by
      simp [getPoundString, List.append_assoc]
    have hnums : numsTokM (poundToken P ++ base1 s m) = none := by
      obtain ⟨q, hq⟩ : ∃ q, P = q + 1 := ⟨P - 1, by omega⟩
      rw [hq, show poundToken (q + 1) ++ base1 s m =
        '#' :: (List.replicate q '#' ++ base1 s m) from by
          simp [poundToken, List.replicate_succ]]
      exact numsTokM_head_not (by decide)
    have hfw : matchToken (poundToken P ++ base1 s m) =
        some ⟨.pounds, P, P, []⟩ := by
      apply matchToken_eq_of_pounds hnums
      unfold poundToken
      exact poundsTokM_run hp hb1hd_hash
    have hEw : endOK ((poundToken P ++ base1 s m).drop
        (Tok.mk .pounds P P []).len) = true := by
      dsimp only
      rw [drop_len_append (show (poundToken P).length = P from by
        simp [poundToken])]
      exact hEb1
    have hloc := plainScan_locate hfw hEw (base0 s m) 0
      (noHijack_pound (base0 s m) (base1 s m) P hp hb1 hpound) hnlb0
    unfold classifyPlain
    rw [hT, hloc]
    dsimp only
    rw [if_neg (by simp), Nat.zero_add, hb0len]
  · -- get_string (digits) rendering
    intro hdig hn0 hnP hbr
    obtain ⟨hTlen, hTd, _⟩ := formatPad_digits hn0 hp hnP
    have hTne : formatPad n P ≠ [] := by
      intro h0
      rw [h0] at hTlen
      simp at hTlen
      omega
    have hguard : ((base0 s m ++ base1 s m).all
        (fun c => !(c = '{' || c = '}'))) = true := by
      rw [List.all_eq_true]
      intro c hc
      obtain ⟨h1, h2⟩ := hbr c hc
      simp [h1, h2]
    have hT : formatJoin s m n P =
        base0 s m ++ (formatPad n P ++ base1 s m) := by
      simp [formatJoin, List.append_assoc]
    have hfw : matchToken (formatPad n P ++ base1 s m) =
        some ⟨.nums, P, P, []⟩ := by
      have h1 := numsTokM_run hTne hTd hb1hd_digit
      rw [hTlen] at h1
      exact matchToken_eq_of_nums h1
    have hEw : endOK ((formatPad n P ++ base1 s m).drop
        (Tok.mk .nums P P []).len) = true := by
      dsimp only
      rw [drop_len_append hTlen]
      exact hEb1
    have hloc := plainScan_locate hfw hEw (base0 s m) 0
      (noHijack_digits (base0 s m) (base1 s m) (formatPad n P) hb1 hTne hTd
        hdig) hnlb0
    constructor
    · unfold getString
      rw [if_pos hguard]
      rfl
    · unfold classifyPlain
      rw [hT, hloc]
      dsimp only
      rw [if_neg (by simp), Nat.zero_add, hb0len]
  · -- regex rendering
    intro hnob
    have hnobr : ∀ c ∈ base0 s m ++ rgxToken P ++ base1 s m, c ≠ '[' := by
      intro c hc
      rcases List.mem_append.mp hc with h1 | h1
      · rcases List.mem_append.mp h1 with h2 | h2
        · exact hnob c (List.mem_of_mem_take h2)
        · have h3 : c = '\\' ∨ c = 'd' ∨ c = '{' ∨ c ∈ natDigits P ∨
              c = '}' := by
            have h4 := h2
            simp only [rgxToken, List.cons_append, List.mem_cons,
              List.mem_append, List.mem_singleton, List.not_mem_nil,
              or_false] at h4
            exact h4
          rcases h3 with rfl | rfl | rfl | h3 | rfl
          · decide
          · decide
          · decide
          · have h5 := natDigits_all_digits P c h3
            intro h4
            rw [h4] at h5
            exact absurd h5 (by decide)
          · decide
      · exact hnob c (List.mem_of_mem_drop h1)
    have hT : getRegexString s m (some P) =
        base0 s m ++ (rgxToken P ++ base1 s m) := by
      show escBr (base0 s m ++ rgxToken P ++ base1 s m) =
        base0 s m ++ (rgxToken P ++ base1 s m)
      rw [escBr_eq_self _ hnobr, List.append_assoc]
    have hform : rgxToken P ++ base1 s m =
        '\\' :: 'd' :: '{' :: (natDigits P ++ '}' :: base1 s m) := by
      simp [rgxToken]
    have hfw : matchToken (rgxToken P ++ base1 s m) =
        some ⟨.rgx, 3 + (natDigits P).length + 1, P, []⟩ := by
      rw [hform]
      apply matchToken_eq_of_rgx
      · exact numsTokM_head_not (by decide)
      · exact poundsTokM_head_not (by decide)
      · have h1 := rgxTokM_run (base1 s m) (natDigits_ne_nil P)
          (natDigits_all_digits P)
        rw [decVal_natDigits] at h1
        exact h1
    have hEw : endOK ((rgxToken P ++ base1 s m).drop
        (Tok.mk .rgx (3 + (natDigits P).length + 1) P []).len) = true := by
      dsimp only
      rw [drop_len_append (show (rgxToken P).length =
        3 + (natDigits P).length + 1 from by simp [rgxToken]; omega)]
      exact hEb1
    have hloc := plainScan_locate hfw hEw (base0 s m) 0
      (noHijack_rgx (base0 s m) (base1 s m) P) hnlb0
    unfold classifyPlain
    rw [hT, hloc]
    dsimp only
    rw [if_neg (by simp), Nat.zero_add, hb0len]
  · -- format-string rendering
    have hT : getFormatString s m itemKey (some P) =
        base0 s m ++ (fmtToken itemKey P ++ base1 s m) := by
      simp [getFormatString, List.append_assoc]
    have hform : fmtToken itemKey P ++ base1 s m =
        '{' :: (itemKey ++ ':' :: (('0' :: natDigits P) ++
          'd' :: '}' :: base1 s m)) := by
      simp [fmtToken]
    have hdsd : ∀ c ∈ '0' :: natDigits P, isDigitC c = true := by
      intro c hc
      rcases List.mem_cons.mp hc with rfl | hc2
      · decide
      · exact natDigits_all_digits P c hc2
    have hfw : matchToken (fmtToken itemKey P ++ base1 s m) =
        some ⟨.formatstring,
          1 + itemKey.length + 1 + ('0' :: natDigits P).length + 2, P,
          itemKey⟩ := by
      rw [hform]
      apply matchToken_eq_of_fmt
      · exact numsTokM_head_not (by decide)
      · exact poundsTokM_head_not (by decide)
      · exact rgxTokM_head_not (by decide)
      · have h1 := fmtTokM_run (base1 s m)
          (show itemKey ≠ [] from by decide)
          (show ∀ c ∈ itemKey, isWordC c = true from by decide)
          (show ('0' :: natDigits P) ≠ [] from by simp) hdsd
        rw [decVal_cons_zero, decVal_natDigits] at h1
        exact h1
    have hEw : endOK ((fmtToken itemKey P ++ base1 s m).drop
        (Tok.mk .formatstring
          (1 + itemKey.length + 1 + ('0' :: natDigits P).length + 2) P
          itemKey).len) = true := by
      dsimp only
      rw [drop_len_append (show (fmtToken itemKey P).length =
        1 + itemKey.length + 1 + ('0' :: natDigits P).length + 2 from by
          simp [fmtToken]; omega)]
      exact hEb1
    have hloc := plainScan_locate hfw hEw (base0 s m) 0
      (noHijack_fmt (base0 s m) (base1 s m) P) hnlb0
    unfold classifyPlain
    rw [hT, hloc]
    dsimp only
    rw [if_neg (by simp), Nat.zero_add, hb0len]
  · -- percent rendering
    have hT : getPercentString s m (some P) =
        base0 s m ++ (pctToken P ++ base1 s m) := by
      simp [getPercentString, List.append_assoc]
    have hform : pctToken P ++ base1 s m =
        '%' :: (('0' :: natDigits P) ++ 'd' :: base1 s m) := by
      simp [pctToken]
    have hdsd : ∀ c ∈ '0' :: natDigits P, isDigitC c = true := by
      intro c hc
      rcases List.mem_cons.mp hc with rfl | hc2
      · decide
      · exact natDigits_all_digits P c hc2
    have hfw : matchToken (pctToken P ++ base1 s m) =
        some ⟨.percent, 1 + ('0' :: natDigits P).length + 1, P, []⟩ := by
      rw [hform]
      apply matchToken_eq_of_pct
      · exact numsTokM_head_not (by decide)
      · exact poundsTokM_head_not (by decide)
      · exact rgxTokM_head_not (by decide)
      · exact fmtTokM_head_not (by decide)
      · have h1 := pctTokM_run (base1 s m)
          (show ('0' :: natDigits P) ≠ [] from by simp) hdsd
        rw [decVal_cons_zero, decVal_natDigits] at h1
        exact h1
    have hEw : endOK ((pctToken P ++ base1 s m).drop
        (Tok.mk .percent (1 + ('0' :: natDigits P).length + 1) P []).len) =
        true := by
      dsimp only
      rw [drop_len_append (show (pctToken P).length =
        1 + ('0' :: natDigits P).length + 1 from by simp [pctToken]; omega)]
      exact hEb1
    have hloc := plainScan_locate hfw hEw (base0 s m) 0
      (noHijack_pct (base0 s m) (base1 s m) P) hnlb0
    unfold classifyPlain
    rw [hT, hloc]
    dsimp only
    rw [if_neg (by simp), Nat.zero_add, hb0len]


/-- Instantiation of the C1 round-trip theorem on the parsed sequence
`"a1"` at requested padding 2 (renders `"a##"`, `"a05"`, `"a\d{2}"`,
`"a{item:02d}"`, `"a%02d"`). -/
theorem C1_padding_roundtrip_witness :
    classifyPlain itemKey
      (getPoundString ['a', '1'] ⟨1, ⟨.nums, 1, 1, []⟩, []⟩ (some 2)) =
      .ok ⟨1, ⟨.pounds, 2, 2, []⟩, []⟩ ∧
    getString ['a', '1'] ⟨1, ⟨.nums, 1, 1, []⟩, []⟩ 5 (some 2) =
      some ['a', '0', '5'] ∧
    classifyPlain itemKey ['a', '0', '5'] =
      .ok ⟨1, ⟨.nums, 2, 2, []⟩, []⟩ ∧
    classifyPlain itemKey
      (getRegexString ['a', '1'] ⟨1, ⟨.nums, 1, 1, []⟩, []⟩ (some 2)) =
      .ok ⟨1, ⟨.rgx, 5, 2, []⟩, []⟩ ∧
    classifyPlain itemKey
      (getFormatString ['a', '1'] ⟨1, ⟨.nums, 1, 1, []⟩, []⟩ itemKey
        (some 2)) =
      .ok ⟨1, ⟨.formatstring, 10, 2, itemKey⟩, []⟩ ∧
    classifyPlain itemKey
      (getPercentString ['a', '1'] ⟨1, ⟨.nums, 1, 1, []⟩, []⟩ (some 2)) =
      .ok ⟨1, ⟨.percent, 4, 2, []⟩, []⟩ := by
  obtain ⟨h1, h2, h3, h4, h5⟩ := C1_padding_roundtrip ['a', '1']
    ⟨1, ⟨.nums, 1, 1, []⟩, []⟩ 2 5 (by decide) (by decide)
  have hdg : ∀ d, (base0 ['a', '1']
      (⟨1, ⟨.nums, 1, 1, []⟩, []⟩ : GMatch)).getLast? = some d →
      isDigitC d = false := by
    intro d hd
    injection hd with hd
    rw [← hd]
    decide
  obtain ⟨h2a, h2b⟩ := h2 hdg (by decide) (by decide) (by decide)
  exact ⟨h1 (by decide), h2a, h2b, h3 (by decide), h4, h5⟩

end Seqs
